import Mathlib

/-!
PRT-7 decoder: rotor, message list, frame parser and decode loop

Shallow embedding of `RotorDeMapeo.h`, `ListaDeCarga.h`, `TramaBase.h` and
`main.cpp`.

Conventions of the embedding.

* A C string is the list of its characters before the terminating NUL;
  `strlen` is the length of that list and reading the index just past the
  end yields the terminator.
* A pointer to a list node is `Option Nat`: `none` is `nullptr`, `some a` is
  the address of the `a`-th node allocated by `new`.  The nodes live in a
  store (`List Nodo`) that `new` extends at its end.
* Dereferencing `nullptr` or an address outside the store is undefined
  behaviour; a function that would do so returns `none`.
* `int` is a 32-bit two's complement integer, carried in `Int` and wrapped
  with `wrapInt` where an operation can leave the range.
-/

namespace PRT7

/-! ## Machine integers -/

/-- Smallest value of a 32-bit `int`. -/
def INT_MIN : Int := -2147483648

/-- Largest value of a 32-bit `int`. -/
def INT_MAX : Int := 2147483647

/-- Value range of `int`. -/
def esInt (n : Int) : Prop := INT_MIN ≤ n ∧ n ≤ INT_MAX

instance (n : Int) : Decidable (esInt n) := by unfold esInt; infer_instance

/-- Two's complement wrap of a mathematical integer into the `int` range. -/
def wrapInt (x : Int) : Int := (x + 2147483648) % 4294967296 - 2147483648

/-! ## Linked nodes -/

/-- The `Nodo` struct that `RotorDeMapeo` and `ListaDeCarga` both declare:
a character and the two links. -/
structure Nodo where
  dato : Char
  siguiente : Option Nat
  anterior : Option Nat
deriving DecidableEq

/-- Dereference of a node pointer: `none` for `nullptr` or a dangling address. -/
def leer (mem : List Nodo) (p : Option Nat) : Option Nodo :=
  match p with
  | none => none
  | some a => mem[a]?

/-- Assignment `p->siguiente = v`. -/
def ponerSiguiente (mem : List Nodo) (p v : Option Nat) : Option (List Nodo) :=
  match p with
  | none => none
  | some a =>
    match mem[a]? with
    | none => none
    | some nd => some (mem.set a { nd with siguiente := v })

/-- Assignment `p->anterior = v`. -/
def ponerAnterior (mem : List Nodo) (p v : Option Nat) : Option (List Nodo) :=
  match p with
  | none => none
  | some a =>
    match mem[a]? with
    | none => none
    | some nd => some (mem.set a { nd with anterior := v })

/-- Body `p = p->campo` repeated `k` times, as in the `for` loops of `rotar`
and `getMapeo`. -/
def seguir (mem : List Nodo) (campo : Nodo → Option Nat) : Nat → Option Nat → Option (Option Nat)
  | 0, p => some p
  | k + 1, p =>
    match leer mem p with
    | none => none
    | some nd => seguir mem campo k (campo nd)

/-! ## RotorDeMapeo -/

/-- The object state of `RotorDeMapeo`: the node store and the `cabeza` pointer. -/
structure RotorDeMapeo where
  mem : List Nodo
  cabeza : Option Nat
deriving DecidableEq

/-- The local array `alfabeto` of the constructor. -/
def alfabeto : List Char := "ABCDEFGHIJKLMNOPQRSTUVWXYZ".toList

/-- Local variables of the constructor while its loop runs. -/
structure Construccion where
  mem : List Nodo
  cabeza : Option Nat
  ultimo : Option Nat
deriving DecidableEq

/-- One pass of the constructor's `for` body with `alfabeto[i] = c`. -/
def RotorDeMapeo.agregar (st : Construccion) (c : Char) : Option Construccion :=
  let nuevo : Option Nat := some st.mem.length
  let mem0 := st.mem ++ [Nodo.mk c none none]
  match st.cabeza with
  | none => some { mem := mem0, cabeza := nuevo, ultimo := nuevo }
  | some _ =>
    match ponerSiguiente mem0 st.ultimo nuevo with
    | none => none
    | some mem1 =>
      match ponerAnterior mem1 nuevo st.ultimo with
      | none => none
      | some mem2 => some { mem := mem2, cabeza := st.cabeza, ultimo := nuevo }

/-- The constructor's loop over the first `tam = 26` letters. -/
def RotorDeMapeo.llenar : List Char → Construccion → Option Construccion
  | [], st => some st
  | c :: cs, st =>
    match RotorDeMapeo.agregar st c with
    | none => none
    | some st1 => RotorDeMapeo.llenar cs st1

/-- The constructor `RotorDeMapeo()`: fill the list, then close the circle. -/
def RotorDeMapeo.nuevo : Option RotorDeMapeo :=
  match RotorDeMapeo.llenar (alfabeto.take 26) { mem := [], cabeza := none, ultimo := none } with
  | none => none
  | some st =>
    match st.cabeza, st.ultimo with
    | some c, some u =>
      match ponerSiguiente st.mem (some u) (some c) with
      | none => none
      | some mem1 =>
        match ponerAnterior mem1 (some c) (some u) with
        | none => none
        | some mem2 => some { mem := mem2, cabeza := st.cabeza }
    | _, _ => some { mem := st.mem, cabeza := st.cabeza }

/-- The method `rotar(int n)`.  The backward loop bound `-n` is computed in
`int`, so it wraps when `n` is `INT_MIN`. -/
def RotorDeMapeo.rotar (r : RotorDeMapeo) (n : Int) : Option RotorDeMapeo :=
  match r.cabeza with
  | none => some r
  | some _ =>
    if n > 0 then
      (seguir r.mem Nodo.siguiente n.toNat r.cabeza).map fun p => { r with cabeza := p }
    else if n < 0 then
      (seguir r.mem Nodo.anterior (wrapInt (-n)).toNat r.cabeza).map fun p => { r with cabeza := p }
    else some r

/-- Test `entrada >= 'A' && entrada <= 'Z'`. -/
def esMayuscula (c : Char) : Bool := decide ('A'.toNat ≤ c.toNat) && decide (c.toNat ≤ 'Z'.toNat)

/-- The method `getMapeo(char entrada)`. -/
def RotorDeMapeo.getMapeo (r : RotorDeMapeo) (entrada : Char) : Option Char :=
  match r.cabeza with
  | none => some entrada
  | some _ =>
    if entrada = ' ' then some ' '
    else if esMayuscula entrada then
      let posicion := entrada.toNat - 'A'.toNat
      match seguir r.mem Nodo.siguiente posicion r.cabeza with
      | none => none
      | some resultado => (leer r.mem resultado).map Nodo.dato
    else some entrada

/-- Net offset of the rotor: the alphabet index of the letter at the head. -/
def RotorDeMapeo.offset (r : RotorDeMapeo) : Option Nat :=
  (leer r.mem r.cabeza).map fun nd => nd.dato.toNat - 'A'.toNat

/-- The `normalize` of the specification, with the truncating `mod` of C. -/
def normalize (x : Int) : Int := (x.tmod 26 + 26).tmod 26

/-- Rotor states reached from a fresh rotor by `rotar` calls with `int` arguments. -/
inductive Alcanzable : RotorDeMapeo → Prop
  | nuevo (r : RotorDeMapeo) : RotorDeMapeo.nuevo = some r → Alcanzable r
  | rotar (r r1 : RotorDeMapeo) (n : Int) :
      Alcanzable r → esInt n → r.rotar n = some r1 → Alcanzable r1

/-- The 26-node ring, in closed form: node `i` holds the `i`-th letter and is
linked to its cyclic neighbours.  `nuevo_eq` shows the constructor builds it. -/
def anillo : List Nodo :=
  (List.range 26).map fun i => Nodo.mk (Char.ofNat (65 + i)) (some ((i + 1) % 26)) (some ((i + 25) % 26))

/-! ## ListaDeCarga -/

/-- The object state of `ListaDeCarga`: the node store and the `cabeza` and
`cola` pointers. -/
structure ListaDeCarga where
  mem : List Nodo
  cabeza : Option Nat
  cola : Option Nat
deriving DecidableEq

/-- The constructor `ListaDeCarga()`. -/
def ListaDeCarga.nueva : ListaDeCarga := { mem := [], cabeza := none, cola := none }

/-- The method `insertarAlFinal(char c)`. -/
def ListaDeCarga.insertarAlFinal (l : ListaDeCarga) (c : Char) : Option ListaDeCarga :=
  let nuevo : Option Nat := some l.mem.length
  let mem0 := l.mem ++ [Nodo.mk c none none]
  match l.cabeza with
  | none => some { mem := mem0, cabeza := nuevo, cola := nuevo }
  | some _ =>
    match ponerSiguiente mem0 l.cola nuevo with
    | none => none
    | some mem1 =>
      match ponerAnterior mem1 nuevo l.cola with
      | none => none
      | some mem2 => some { mem := mem2, cabeza := l.cabeza, cola := nuevo }

/-- The loop `while (actual) { ...actual->dato...; actual = actual->siguiente; }`
of the two printing methods, returning the characters it visits.  The fuel
counts node visits: a chain that needs more visits than there are nodes
revisits one and the loop never ends, which is reported as `none`, like a
dangling pointer. -/
def recorrer (mem : List Nodo) : Nat → Option Nat → Option (List Char)
  | _, none => some []
  | 0, some _ => none
  | fuel + 1, some a =>
    match mem[a]? with
    | none => none
    | some nd => (recorrer mem fuel nd.siguiente).map fun cs => nd.dato :: cs

/-- The method `imprimirMensaje()`: the text written to `std::cout`. -/
def ListaDeCarga.imprimirMensaje (l : ListaDeCarga) : Option (List Char) :=
  match l.cabeza with
  | none => some ("[MENSAJE VACIO]".toList ++ ['\n'])
  | some _ => (recorrer l.mem l.mem.length l.cabeza).map fun cs => cs ++ ['\n']

/-- The method `imprimirMensajeDetallado()`: the text written to `std::cout`. -/
def ListaDeCarga.imprimirMensajeDetallado (l : ListaDeCarga) : Option (List Char) :=
  match l.cabeza with
  | none => some ("[MENSAJE VACIO]".toList ++ ['\n'])
  | some _ =>
    (recorrer l.mem l.mem.length l.cabeza).map fun cs =>
      (cs.map fun c => ['[', c, ']']).flatten ++ ['\n']

/-- Node `i` of the message list that holds the characters `cs`: it carries
`cs[i]` and is linked to its neighbours, with null links at the two ends. -/
def nodoDe (cs : List Char) (i : Nat) : Nodo :=
  Nodo.mk (cs.getD i ' ')
    (if i + 1 < cs.length then some (i + 1) else none)
    (if 0 < i then some (i - 1) else none)

/-- The message list, in closed form, after the characters `cs` were inserted
into a fresh list.  `insertar_listaDe` shows `insertarAlFinal` builds it. -/
def listaDe (cs : List Char) : ListaDeCarga :=
  { mem := (List.range cs.length).map (nodoDe cs)
    cabeza := if cs.length = 0 then none else some 0
    cola := if cs.length = 0 then none else some (cs.length - 1) }

/-! ## Frames (`TramaBase.h`) -/

/-- The class hierarchy `TramaBase` with its two subclasses and their fields. -/
inductive TramaBase where
  | TramaLoad (caracter : Char)
  | TramaMap (rotacion : Int)
deriving DecidableEq

/-- The virtual method `procesar(ListaDeCarga* carga, RotorDeMapeo* rotor)`.
Both arguments are pointers that may be null; the result is the state of the
two objects afterwards. -/
def TramaBase.procesar (t : TramaBase) (carga : Option ListaDeCarga) (rotor : Option RotorDeMapeo) :
    Option (Option ListaDeCarga × Option RotorDeMapeo) :=
  match t with
  | TramaBase.TramaLoad caracter =>
    -- `char decodificado = NULL; if (carga) { decodificado = rotor->getMapeo(caracter); }`
    let decodificado : Option Char :=
      match carga with
      | none => some (Char.ofNat 0)
      | some _ =>
        match rotor with
        | none => none
        | some r => r.getMapeo caracter
    match decodificado with
    | none => none
    | some d =>
      -- `carga->insertarAlFinal(decodificado);`
      match carga with
      | none => none
      | some l =>
        match l.insertarAlFinal d with
        | none => none
        | some l1 =>
          -- `carga->imprimirMensajeDetallado();`
          match l1.imprimirMensajeDetallado with
          | none => none
          | some _ => some (some l1, rotor)
  | TramaBase.TramaMap rotacion =>
    -- `rotor->rotar(rotacion);`
    match rotor with
    | none => none
    | some r =>
      match r.rotar rotacion with
      | none => none
      | some r1 => some (carga, some r1)

/-! ## C library functions used by `parsearTrama` and `main` -/

/-- The test `std::strcmp(a, b) == 0`: the two strings are equal. -/
def strcmpCero (a b : List Char) : Bool := decide (a = b)

/-- The element `linea[i]` of a C string; the terminator past its end. -/
def charAt (s : List Char) (i : Nat) : Char := s.getD i (Char.ofNat 0)

/-- The C function `isspace` in the "C" locale. -/
def isspace (c : Char) : Bool :=
  c.toNat = 32 || (decide (9 ≤ c.toNat) && decide (c.toNat ≤ 13))

/-- The C function `isdigit`. -/
def isdigit (c : Char) : Bool := decide ('0'.toNat ≤ c.toNat) && decide (c.toNat ≤ '9'.toNat)

/-- Value of the longest prefix of decimal digits, continuing from `acc`. -/
def leerDigitos : List Char → Nat → Nat
  | [], acc => acc
  | c :: cs, acc => if isdigit c then leerDigitos cs (10 * acc + (c.toNat - '0'.toNat)) else acc

/-- An optional sign followed by decimal digits, read up to the first
non-digit; `0` when there is no digit. -/
def valorSignoDigitos (s : List Char) : Int :=
  match s with
  | '-' :: t => -(leerDigitos t 0 : Int)
  | '+' :: t => (leerDigitos t 0 : Int)
  | _ => (leerDigitos s 0 : Int)

/-- Smallest value of a 64-bit `long`. -/
def LONG_MIN : Int := -9223372036854775808

/-- Largest value of a 64-bit `long`. -/
def LONG_MAX : Int := 9223372036854775807

/-- The C function `strtol(s, NULL, 10)`: white space is skipped, then an
optional sign and the digits are read, and a value outside `long` is
replaced by the nearest bound. -/
def strtol (s : List Char) : Int :=
  let v := valorSignoDigitos (s.dropWhile isspace)
  if v < LONG_MIN then LONG_MIN else if LONG_MAX < v then LONG_MAX else v

/-- The C function `atoi(s)`, which is `(int) strtol(s, NULL, 10)`. -/
def atoi (s : List Char) : Int := wrapInt (strtol s)

/-! ## `main.cpp` -/

/-- The function `parsearTrama(const char* linea)`; the argument `none` is a
null pointer and the result `none` is `nullptr`. -/
def parsearTrama (linea : Option (List Char)) : Option TramaBase :=
  match linea with
  | none => none
  | some [] => none
  | some l =>
    if decide (l.length < 3) || (charAt l 1 != ',') then none
    else
      let tipo := charAt l 0
      if tipo = 'L' then
        let dato := l.drop 2
        if strcmpCero dato "Space".toList then some (TramaBase.TramaLoad ' ')
        else
          let caracter := charAt l 2
          some (TramaBase.TramaLoad caracter)
      else if tipo = 'M' then
        let rotacion := atoi (l.drop 2)
        some (TramaBase.TramaMap rotacion)
      else none

/-- The constant `MAX_TRAMAS` of `main`. -/
def MAX_TRAMAS : Int := 100

/-- The objects and the counter that `main` keeps while it decodes. -/
structure Sesion where
  listaCarga : ListaDeCarga
  rotor : RotorDeMapeo
  tramasProcesadas : Int
deriving DecidableEq

/-- How one pass of the `while` body ends: at its end or at a `continue`
(`continuar`), or at the `break` (`salir`). -/
inductive Paso where
  | continuar (s : Sesion)
  | salir (s : Sesion)
deriving DecidableEq

/-- The session after a pass of the loop body. -/
def Paso.sesion : Paso → Sesion
  | Paso.continuar s => s
  | Paso.salir s => s

/-- One pass of the body of the `while` loop of `main`, given what
`arduino->leerLinea()` returned (`none` is `nullptr`). -/
def iteracion (s : Sesion) (linea : Option (List Char)) : Option Paso :=
  match linea with
  | none => some (Paso.continuar s)
  | some l =>
    if l = [] then some (Paso.continuar s)
    else if strcmpCero l "FIN".toList then some (Paso.salir s)
    else
      match parsearTrama (some l) with
      | none => some (Paso.continuar s)
      | some trama =>
        match trama.procesar (some s.listaCarga) (some s.rotor) with
        | some (some l1, some r1) =>
          some (Paso.continuar
            { listaCarga := l1, rotor := r1, tramasProcesadas := s.tramasProcesadas + 1 })
        | _ => none

/-- Where the loop of `main` stands once the given reads are used up: still
asking for a line (`esperando`) or left (`terminado`). -/
inductive Estado where
  | esperando (s : Sesion)
  | terminado (s : Sesion)
deriving DecidableEq

/-- The session of a loop state. -/
def Estado.sesion : Estado → Sesion
  | Estado.esperando s => s
  | Estado.terminado s => s

/-- The loop `while (tramasProcesadas < MAX_TRAMAS) { ... }` of `main`, run on
the successive results of `leerLinea`. -/
def bucle : List (Option (List Char)) → Sesion → Option Estado
  | [], s =>
    if s.tramasProcesadas < MAX_TRAMAS then some (Estado.esperando s)
    else some (Estado.terminado s)
  | l :: ls, s =>
    if s.tramasProcesadas < MAX_TRAMAS then
      match iteracion s l with
      | none => none
      | some (Paso.salir s1) => some (Estado.terminado s1)
      | some (Paso.continuar s1) => bucle ls s1
    else some (Estado.terminado s)

/-- The state of `main` when it enters the loop. -/
def sesionInicial : Option Sesion :=
  RotorDeMapeo.nuevo.map fun r =>
    { listaCarga := ListaDeCarga.nueva, rotor := r, tramasProcesadas := 0 }

/-- The decoding part of `main` on the given reads: the loop from the initial
state. -/
def decodificar (lecturas : List (Option (List Char))) : Option Estado :=
  match sesionInicial with
  | none => none
  | some s => bucle lecturas s

/-- The text `listaCarga->imprimirMensaje()` writes for a loop state. -/
def Estado.mensaje (e : Estado) : Option (List Char) := e.sesion.listaCarga.imprimirMensaje

/-- Reads that all deliver a line. -/
def lineas (ls : List String) : List (Option (List Char)) := ls.map fun s => some s.toList

/-! ## The reference decoder of the specification

The decoder the specification describes: the rotor is one integer offset, the
buffer is a sequence of characters.  Lines become frames through
`parsearTrama`. -/

/-- The `mapChar` of the specification for a rotor at the given offset. -/
def mapChar (offset : Int) (input : Char) : Char :=
  if input = ' ' then ' '
  else if esMayuscula input then
    Char.ofNat ('A'.toNat + (normalize (((input.toNat : Int) - ('A'.toNat : Int)) + offset)).toNat)
  else input

/-- The frames the orchestrator of the specification processes while at most
`cap` more frames are allowed: a read without a line, an empty line or a line
without a frame is passed over, `"FIN"` ends the session, and so does the cap. -/
def procesadas : Nat → List (Option (List Char)) → List TramaBase
  | 0, _ => []
  | _ + 1, [] => []
  | cap + 1, lec :: ls =>
    if lec = some "FIN".toList then []
    else
      match parsearTrama lec with
      | none => procesadas (cap + 1) ls
      | some t => t :: procesadas cap ls

/-- The message of the reference decoder: each Load frame's symbol, in order,
mapped by `mapChar` under the offset `normalize` of the sum of the rotations
of the Map frames before it (`suma` is the sum so far). -/
def mensajeReferencia : Int → List TramaBase → List Char
  | _, [] => []
  | suma, TramaBase.TramaLoad c :: ts => mapChar (normalize suma) c :: mensajeReferencia suma ts
  | suma, TramaBase.TramaMap n :: ts => mensajeReferencia (suma + n) ts

/-- The `render` of the specification: the symbols in insertion order, or the
empty indicator for an empty buffer. -/
def render (cs : List Char) : List Char :=
  if cs = [] then "[MENSAJE VACIO]".toList else cs

/-! ## Closed forms used in the proofs -/

/-- The sentinel line `"FIN"`. -/
def finLinea : List Char := "FIN".toList

/-- The session whose rotor is the ring with the head on node `k`, whose
message list holds `cs` and whose counter is `n`. -/
def concreta (k : Nat) (cs : List Char) (n : Int) : Sesion :=
  { listaCarga := listaDe cs, rotor := { mem := anillo, cabeza := some k }, tramasProcesadas := n }

/-- What `getMapeo` returns on the ring with the head on node `k`
(`getMapeo_concreta`). -/
def mapeoEn (k : Nat) (c : Char) : Char :=
  if c = ' ' then ' '
  else if esMayuscula c then Char.ofNat (65 + (k + (c.toNat - 65)) % 26)
  else c

/-- Where `rotar n` leaves the head of the ring when it was on node `k`
(`rotar_concreta`). -/
def girar (k : Nat) (n : Int) : Nat :=
  if n = INT_MIN then k else (((k : Int) + n) % 26).toNat

/-- A read that delivers a line other than `"FIN"` on which `parsearTrama`
returns a frame. -/
def esTramaValida (lec : Option (List Char)) : Bool := (parsearTrama lec).isSome

/-- The loop state with the loop left. -/
def Estado.cerrar (e : Estado) : Estado := Estado.terminado e.sesion

/-! ## Notions used to state the properties of the rotor and of the list -/

/-- Two rotors give the same mapping: `getMapeo` returns the same result on
every character. -/
def mismoMapeo (r1 r2 : RotorDeMapeo) : Prop := ∀ c : Char, r1.getMapeo c = r2.getMapeo c

/-- The rotor at offset `x`: a fresh rotor after `rotar(x)`. -/
def rotorEn (x : Int) : Option RotorDeMapeo := RotorDeMapeo.nuevo.bind fun r => r.rotar x

/-- The characters the `while` loop of `imprimirMensaje` writes: the content
of the list, read from `cabeza` along `siguiente`. -/
def ListaDeCarga.caracteres (l : ListaDeCarga) : Option (List Char) :=
  recorrer l.mem l.mem.length l.cabeza

/-- A series of `insertarAlFinal` calls, one for each character in turn. -/
def ListaDeCarga.insertarTodos : ListaDeCarga → List Char → Option ListaDeCarga
  | l, [] => some l
  | l, c :: cs =>
    match l.insertarAlFinal c with
    | none => none
    | some l1 => ListaDeCarga.insertarTodos l1 cs

/-- Whether a frame is a `TramaLoad`. -/
def esLoad : TramaBase → Bool
  | TramaBase.TramaLoad _ => true
  | TramaBase.TramaMap _ => false

/-- What a read adds to the number of Load frames processed: 1 when
`parsearTrama` returns a `TramaLoad` for it, 0 otherwise. -/
def cuentaLoad (lec : Option (List Char)) : Nat :=
  match parsearTrama lec with
  | some (TramaBase.TramaLoad _) => 1
  | _ => 0

/-- The `do { ... } while (actual != cabeza)` loop of `imprimir()`, with its
counter `count` and the safety exit `count > 30`; the result is the characters
written.  The fuel bounds the passes, which the safety exit keeps to 31. -/
def imprimirBucle (mem : List Nodo) (cabeza : Option Nat) :
    Nat → Nat → Option Nat → Option (List Char)
  | 0, _, _ => none
  | fuel + 1, count, actual =>
    match leer mem actual with
    | none => none
    | some nd =>
      if count + 1 > 30 then some [nd.dato]
      else if nd.siguiente != cabeza then
        (imprimirBucle mem cabeza fuel (count + 1) nd.siguiente).map fun cs => nd.dato :: cs
      else some [nd.dato]

/-- The method `imprimir()`: the text written to `std::cout`. -/
def RotorDeMapeo.imprimir (r : RotorDeMapeo) : Option (List Char) :=
  match r.cabeza with
  | none => some ("[ROTOR VACIO]".toList ++ ['\n'])
  | some _ =>
    match leer r.mem r.cabeza with
    | none => none
    | some nd =>
      (imprimirBucle r.mem r.cabeza 31 0 r.cabeza).map fun cs =>
        "[ROTOR] Cabeza en ".toList ++ [Char.ofNat 39, nd.dato, Char.ofNat 39] ++ ": ".toList
          ++ cs ++ ['\n']

/-- A call of one of the two methods of `RotorDeMapeo` that are not `const`. -/
inductive Llamada where
  | rotar (n : Int)
  | getMapeo (entrada : Char)
deriving DecidableEq

/-- The rotor after a call.  `getMapeo` assigns to no member: it only moves
its local pointer `resultado`, so the object is the same when it returns. -/
def RotorDeMapeo.llamar (r : RotorDeMapeo) : Llamada → Option RotorDeMapeo
  | Llamada.rotar n => r.rotar n
  | Llamada.getMapeo entrada => (r.getMapeo entrada).map fun _ => r

/-- The rotor after a sequence of calls. -/
def RotorDeMapeo.llamarTodas : RotorDeMapeo → List Llamada → Option RotorDeMapeo
  | r, [] => some r
  | r, ll :: lls =>
    match r.llamar ll with
    | none => none
    | some r1 => RotorDeMapeo.llamarTodas r1 lls

/-! ## Walks over the message list -/

/-- The walk `p = p->campo` from `p` until the null pointer, returning the
addresses of the nodes visited in order.  The fuel counts node visits, as in
`recorrer`: a walk that needs more visits than there are nodes never ends. -/
def caminar (mem : List Nodo) (campo : Nodo → Option Nat) : Nat → Option Nat → Option (List Nat)
  | _, none => some []
  | 0, some _ => none
  | fuel + 1, some a =>
    match mem[a]? with
    | none => none
    | some nd => (caminar mem campo fuel (campo nd)).map fun ns => a :: ns

/-! ## ArduinoSerial::leerLinea -/

/-- What one call `read(serial_port, &buf, 1)` gives: a byte (`n > 0`), no data
(`n == 0`, or `n < 0` with `errno` equal to `EAGAIN` or `EWOULDBLOCK`), or a
real read error (`n < 0` with another `errno`). -/
inductive Leido where
  | byte (buf : Char)
  | nada
  | error
deriving DecidableEq

/-- The C string held by a buffer: its characters before the first NUL. -/
def cadena (buf : List Char) : List Char := buf.takeWhile fun c => c != Char.ofNat 0

/-- The loop `while (idx < 255) { ... }` of `leerLinea` on the successive results
of `read`, with `linea[0..idx)` in `buf`.  The result is the pointer returned
(`none` is `nullptr`, otherwise the C string in `linea`, closed by the NUL
written before the return) and the results of `read` not yet used; it is
`none` when the results run out before the call returns. -/
def leerLineaBucle : List Leido → List Char → Option (Option (List Char) × List Leido)
  | [], buf => if buf.length < 255 then none else some (some (cadena buf), [])
  | x :: rs, buf =>
    if buf.length < 255 then
      match x with
      | Leido.byte b =>
        if b = '\n' then some (some (cadena buf), rs)
        else if b ≠ '\r' then leerLineaBucle rs (buf ++ [b])
        else leerLineaBucle rs buf
      | Leido.nada => leerLineaBucle rs buf
      | Leido.error => some (none, rs)
    else some (some (cadena buf), x :: rs)

/-- The method `ArduinoSerial::leerLinea()` of an object whose field
`conectado` has the given value. -/
def leerLinea (conectado : Bool) (lecturas : List Leido) :
    Option (Option (List Char) × List Leido) :=
  if conectado then leerLineaBucle lecturas [] else some (none, lecturas)

/-- The bytes among the results of `read`, in order. -/
def bytesDe : List Leido → List Char
  | [] => []
  | Leido.byte b :: rs => b :: bytesDe rs
  | _ :: rs => bytesDe rs

/-- The bytes that precede the first `'\n'`, with every `'\r'` removed. -/
def antesDeSalto (bs : List Char) : List Char :=
  (bs.takeWhile fun c => c != '\n').filter fun c => c != '\r'

/-! ## Rotor: facts -/

theorem nuevo_eq : RotorDeMapeo.nuevo = some { mem := anillo, cabeza := some 0 } := by
  decide

theorem anillo_get (k : Nat) (hk : k < 26) :
    anillo[k]? = some (Nodo.mk (Char.ofNat (65 + k)) (some ((k + 1) % 26)) (some ((k + 25) % 26))) := by
  simp [anillo, List.getElem?_map, List.getElem?_range, hk]

theorem seguir_siguiente (j : Nat) : ∀ k, k < 26 →
    seguir anillo Nodo.siguiente j (some k) = some (some ((k + j) % 26)) := by
  induction j with
  | zero => intro k hk; simp [seguir, Nat.mod_eq_of_lt hk]
  | succ j ih =>
    intro k hk
    have hlt : (k + 1) % 26 < 26 := Nat.mod_lt _ (by decide)
    simp only [seguir, leer, anillo_get k hk, ih _ hlt]
    congr 2
    omega

theorem seguir_anterior (j : Nat) : ∀ k, k < 26 →
    seguir anillo Nodo.anterior j (some k) = some (some ((k + 25 * j) % 26)) := by
  induction j with
  | zero => intro k hk; simp [seguir, Nat.mod_eq_of_lt hk]
  | succ j ih =>
    intro k hk
    have hlt : (k + 25) % 26 < 26 := Nat.mod_lt _ (by decide)
    simp only [seguir, leer, anillo_get k hk, ih _ hlt]
    congr 2
    omega

theorem normalize_eq_emod (x : Int) : normalize x = x % 26 := by
  unfold normalize
  rcases le_or_lt 0 x with hx | hx
  · rw [Int.tmod_eq_emod hx (by decide), Int.tmod_eq_emod (by omega) (by decide)]
    omega
  · obtain ⟨m, rfl⟩ := Int.eq_negSucc_of_lt_zero hx
    have h1 : (Int.negSucc m).tmod 26 = -(((m + 1) % 26 : Nat) : Int) := rfl
    have h2 : Int.negSucc m = -((m : Int) + 1) := Int.negSucc_eq m
    rw [h1, Int.tmod_eq_emod (by omega) (by decide), h2]
    omega

theorem wrapInt_neg (n : Int) (hn : esInt n) (hmin : n ≠ INT_MIN) : wrapInt (-n) = -n := by
  unfold esInt INT_MIN INT_MAX at *
  unfold wrapInt
  omega

theorem wrapInt_neg_min : wrapInt (-INT_MIN) = INT_MIN := by decide

theorem wrapInt_esInt (x : Int) : esInt (wrapInt x) := by
  unfold esInt INT_MIN INT_MAX wrapInt
  omega

/-- On the ring with the head at node `k`, `rotar n` moves the head to node
`(k + n) mod 26`, for every `int` but the most negative one. -/
theorem rotar_anillo (k : Nat) (hk : k < 26) (n : Int) (hn : esInt n) (hmin : n ≠ INT_MIN) :
    RotorDeMapeo.rotar { mem := anillo, cabeza := some k } n
      = some { mem := anillo, cabeza := some (((k : Int) + n) % 26).toNat } := by
  unfold RotorDeMapeo.rotar
  simp only
  split_ifs with h1 h2
  · rw [seguir_siguiente _ k hk]
    simp only [Option.map_some']
    congr 3
    omega
  · rw [wrapInt_neg n hn hmin, seguir_anterior _ k hk]
    simp only [Option.map_some']
    congr 3
    omega
  · have : n = 0 := by omega
    subst this
    congr 3
    omega

/-- On the ring, `rotar INT_MIN` runs its backward loop zero times. -/
theorem rotar_anillo_min (k : Nat) :
    RotorDeMapeo.rotar { mem := anillo, cabeza := some k } INT_MIN
      = some { mem := anillo, cabeza := some k } := by
  unfold RotorDeMapeo.rotar
  simp only [wrapInt_neg_min]
  rfl

/-- Every reachable rotor is the ring with the head on one of its 26 nodes. -/
theorem alcanzable_forma (r : RotorDeMapeo) (h : Alcanzable r) :
    ∃ k, k < 26 ∧ r = { mem := anillo, cabeza := some k } := by
  induction h with
  | nuevo r h0 =>
    refine ⟨0, by decide, ?_⟩
    rw [nuevo_eq] at h0
    exact (Option.some.inj h0).symm
  | rotar r r1 n _ hn hrot ih =>
    obtain ⟨k, hk, rfl⟩ := ih
    by_cases hmin : n = INT_MIN
    · subst hmin
      rw [rotar_anillo_min] at hrot
      exact ⟨k, hk, (Option.some.inj hrot).symm⟩
    · rw [rotar_anillo k hk n hn hmin] at hrot
      refine ⟨(((k : Int) + n) % 26).toNat, by omega, (Option.some.inj hrot).symm⟩

theorem char_ofNat_toNat (k : Nat) (hk : k < 26) : (Char.ofNat (65 + k)).toNat = 65 + k := by
  interval_cases k <;> rfl

theorem offset_anillo (k : Nat) (hk : k < 26) :
    RotorDeMapeo.offset { mem := anillo, cabeza := some k } = some k := by
  simp [RotorDeMapeo.offset, leer, anillo_get k hk, char_ofNat_toNat k hk]

theorem esMayuscula_iff (c : Char) : esMayuscula c = true ↔ 65 ≤ c.toNat ∧ c.toNat ≤ 90 := by
  simp [esMayuscula]

theorem getMapeo_anillo (k : Nat) (hk : k < 26) (c : Char) (hc : esMayuscula c = true) :
    RotorDeMapeo.getMapeo { mem := anillo, cabeza := some k } c
      = some (Char.ofNat (65 + (k + (c.toNat - 65)) % 26)) := by
  have hc2 := (esMayuscula_iff c).1 hc
  have hsp : c ≠ ' ' := by
    rintro rfl
    simp at hc2
  have hA : 'A'.toNat = 65 := rfl
  unfold RotorDeMapeo.getMapeo
  simp only [hsp, if_false, hc, if_true, hA]
  rw [seguir_siguiente _ k hk]
  simp only [leer]
  rw [anillo_get _ (Nat.mod_lt _ (by decide))]
  rfl

theorem getMapeo_espacio (r : RotorDeMapeo) : r.getMapeo ' ' = some ' ' := by
  unfold RotorDeMapeo.getMapeo
  cases r.cabeza <;> simp

theorem getMapeo_otro (r : RotorDeMapeo) (c : Char) (hc : esMayuscula c = false) :
    r.getMapeo c = some c := by
  unfold RotorDeMapeo.getMapeo
  cases r.cabeza with
  | none => rfl
  | some a =>
    by_cases hsp : c = ' '
    · simp [hsp]
    · simp [hsp, hc]

/-! ## Message list: facts -/

theorem listaDe_get (cs : List Char) (i : Nat) (h : i < cs.length) :
    (listaDe cs).mem[i]? = some (nodoDe cs i) := by
  simp [listaDe, List.getElem?_map, List.getElem?_range h]

theorem listaDe_length (cs : List Char) : (listaDe cs).mem.length = cs.length := by
  simp [listaDe]

theorem listaDe_nil : listaDe [] = ListaDeCarga.nueva := rfl

theorem insertar_listaDe (cs : List Char) (c : Char) :
    (listaDe cs).insertarAlFinal c = some (listaDe (cs ++ [c])) := by
  by_cases hcs : cs = []
  · subst hcs
    rfl
  · have hn : 0 < cs.length := List.length_pos.2 hcs
    have hcab : (listaDe cs).cabeza = some 0 := by simp [listaDe, hcs]
    have hcola : (listaDe cs).cola = some (cs.length - 1) := by simp [listaDe, hcs]
    have e1 : ((listaDe cs).mem ++ [Nodo.mk c none none])[cs.length - 1]?
        = some (nodoDe cs (cs.length - 1)) := by
      rw [List.getElem?_append_left (by rw [listaDe_length]; omega)]
      exact listaDe_get cs _ (by omega)
    unfold ListaDeCarga.insertarAlFinal
    simp only [hcab, hcola, listaDe_length, ponerSiguiente, e1]
    have e2 : (((listaDe cs).mem ++ [Nodo.mk c none none]).set (cs.length - 1)
        { nodoDe cs (cs.length - 1) with siguiente := some cs.length })[cs.length]?
        = some (Nodo.mk c none none) := by
      rw [List.getElem?_set_ne (by omega)]
      have := List.getElem?_concat_length (listaDe cs).mem (Nodo.mk c none none)
      rwa [listaDe_length] at this
    simp only [ponerAnterior, e2]
    have hmem : ((((listaDe cs).mem ++ [Nodo.mk c none none]).set (cs.length - 1)
        { nodoDe cs (cs.length - 1) with siguiente := some cs.length }).set cs.length
        { Nodo.mk c none none with anterior := some (cs.length - 1) })
        = (listaDe (cs ++ [c])).mem := by
      apply List.ext_getElem?
      intro i
      rcases Nat.lt_or_ge i (cs.length + 1) with hi | hi
      · rw [listaDe_get _ _ (by simpa using hi)]
        by_cases h2 : i = cs.length
        · subst h2
          rw [List.getElem?_set_self (by simp [listaDe_length])]
          simp [nodoDe, hn, List.getD_eq_getElem?_getD]
        · rw [List.getElem?_set_ne (Ne.symm h2)]
          by_cases h3 : i = cs.length - 1
          · subst h3
            rw [List.getElem?_set_self (by simp [listaDe_length]; omega)]
            have h4 : cs.length - 1 + 1 = cs.length := by omega
            have h5 : cs.length - 1 < cs.length := by omega
            simp [nodoDe, h4, List.getD_eq_getElem?_getD, List.getElem?_append_left h5]
          · have h5 : i < cs.length := by omega
            rw [List.getElem?_set_ne (Ne.symm h3),
              List.getElem?_append_left (by rw [listaDe_length]; exact h5), listaDe_get _ _ h5]
            have h6 : i + 1 < cs.length := by omega
            simp [nodoDe, h6, List.getD_eq_getElem?_getD, List.getElem?_append_left h5]
            omega
      · rw [List.getElem?_eq_none (by simp [listaDe_length]; omega),
          List.getElem?_eq_none (by simp [listaDe_length]; omega)]
    rw [hmem]
    simp [listaDe]

theorem recorrer_listaDe (cs : List Char) (fuel : Nat) : ∀ i, i < cs.length →
    cs.length - i ≤ fuel → recorrer (listaDe cs).mem fuel (some i) = some (cs.drop i) := by
  induction fuel with
  | zero => intro i h1 h2; omega
  | succ fuel ih =>
    intro i h1 h2
    simp only [recorrer, listaDe_get cs i h1]
    have hd : cs.drop i = cs.getD i ' ' :: cs.drop (i + 1) := by
      rw [List.getD_eq_getElem _ _ h1]
      exact List.drop_eq_getElem_cons h1
    by_cases h3 : i + 1 < cs.length
    · simp only [nodoDe, h3, if_true]
      rw [ih (i + 1) h3 (by omega), hd]
      rfl
    · simp only [nodoDe, h3, if_false, recorrer]
      rw [hd, List.drop_of_length_le (by omega)]
      rfl

/-- The buffer that holds `cs` prints `cs` and a newline, or the empty
indicator when `cs` is empty. -/
theorem imprimirMensaje_listaDe (cs : List Char) :
    (listaDe cs).imprimirMensaje
      = some (if cs = [] then "[MENSAJE VACIO]".toList ++ ['\n'] else cs ++ ['\n']) := by
  by_cases hcs : cs = []
  · subst hcs
    rfl
  · have hn : 0 < cs.length := List.length_pos.2 hcs
    have hcab : (listaDe cs).cabeza = some 0 := by simp [listaDe, hcs]
    unfold ListaDeCarga.imprimirMensaje
    simp only [hcab, listaDe_length, recorrer_listaDe cs cs.length 0 hn (by omega), if_neg hcs]
    rfl

theorem imprimirMensajeDetallado_listaDe (cs : List Char) :
    ∃ out, (listaDe cs).imprimirMensajeDetallado = some out := by
  by_cases hcs : cs = []
  · subst hcs
    exact ⟨_, rfl⟩
  · have hn : 0 < cs.length := List.length_pos.2 hcs
    have hcab : (listaDe cs).cabeza = some 0 := by simp [listaDe, hcs]
    unfold ListaDeCarga.imprimirMensajeDetallado
    simp only [hcab, listaDe_length, recorrer_listaDe cs cs.length 0 hn (by omega)]
    exact ⟨_, rfl⟩

/-! ## Decode loop: facts -/

theorem girar_lt (k : Nat) (hk : k < 26) (n : Int) : girar k n < 26 := by
  unfold girar
  split_ifs
  · exact hk
  · omega

theorem rotar_concreta (k : Nat) (hk : k < 26) (n : Int) (hn : esInt n) :
    RotorDeMapeo.rotar { mem := anillo, cabeza := some k } n
      = some { mem := anillo, cabeza := some (girar k n) } := by
  unfold girar
  by_cases hmin : n = INT_MIN
  · rw [if_pos hmin, hmin]
    exact rotar_anillo_min k
  · rw [if_neg hmin]
    exact rotar_anillo k hk n hn hmin

theorem getMapeo_concreta (k : Nat) (hk : k < 26) (c : Char) :
    RotorDeMapeo.getMapeo { mem := anillo, cabeza := some k } c = some (mapeoEn k c) := by
  unfold mapeoEn
  by_cases hsp : c = ' '
  · rw [if_pos hsp, hsp]
    exact getMapeo_espacio _
  · rw [if_neg hsp]
    cases hc : esMayuscula c with
    | true => simpa using getMapeo_anillo k hk c hc
    | false => simpa using getMapeo_otro _ c hc

theorem parsearTrama_fin : parsearTrama (some finLinea) = none := by decide

theorem parsearTrama_nil : parsearTrama (some []) = none := rfl

theorem parsearTrama_map_esInt (lec : Option (List Char)) (n : Int)
    (h : parsearTrama lec = some (TramaBase.TramaMap n)) : esInt n := by
  match lec, h with
  | some (a :: t), h =>
    simp only [parsearTrama] at h
    split_ifs at h
    · simp at h
    · simp at h
    · simp only [Option.some.injEq, TramaBase.TramaMap.injEq] at h
      rw [← h]
      exact wrapInt_esInt _

theorem procesar_load (k : Nat) (hk : k < 26) (cs : List Char) (c : Char) :
    (TramaBase.TramaLoad c).procesar (some (listaDe cs)) (some { mem := anillo, cabeza := some k })
      = some (some (listaDe (cs ++ [mapeoEn k c])), some { mem := anillo, cabeza := some k }) := by
  obtain ⟨out, hout⟩ := imprimirMensajeDetallado_listaDe (cs ++ [mapeoEn k c])
  simp only [TramaBase.procesar, getMapeo_concreta k hk, insertar_listaDe, hout]

theorem procesar_map (k : Nat) (hk : k < 26) (cs : List Char) (n : Int) (hn : esInt n) :
    (TramaBase.TramaMap n).procesar (some (listaDe cs)) (some { mem := anillo, cabeza := some k })
      = some (some (listaDe cs), some { mem := anillo, cabeza := some (girar k n) }) := by
  simp only [TramaBase.procesar, rotar_concreta k hk n hn]

/-- One pass of the loop body from a session in closed form. -/
theorem iteracion_concreta (k : Nat) (hk : k < 26) (cs : List Char) (n : Int)
    (lec : Option (List Char)) :
    iteracion (concreta k cs n) lec = some (
      if lec = some finLinea then Paso.salir (concreta k cs n)
      else
        match parsearTrama lec with
        | none => Paso.continuar (concreta k cs n)
        | some (TramaBase.TramaLoad c) => Paso.continuar (concreta k (cs ++ [mapeoEn k c]) (n + 1))
        | some (TramaBase.TramaMap m) => Paso.continuar (concreta (girar k m) cs (n + 1))) := by
  cases lec with
  | none => simp [iteracion, parsearTrama]
  | some l =>
    by_cases hnil : l = []
    · subst hnil
      have : ¬ (([] : List Char) = finLinea) := by decide
      simp [iteracion, parsearTrama_nil, this]
    · by_cases hfin : l = finLinea
      · subst hfin
        simp [iteracion, strcmpCero, finLinea]
      · have hfin2 : ¬ (l = "FIN".toList) := hfin
        simp only [iteracion, if_neg hnil, strcmpCero, decide_eq_true_eq, if_neg hfin2,
          Option.some.injEq, if_neg hfin]
        cases hp : parsearTrama (some l) with
        | none => rfl
        | some t =>
          cases t with
          | TramaLoad c =>
            simp only [concreta, procesar_load k hk]
          | TramaMap m =>
            have hm := parsearTrama_map_esInt _ _ hp
            simp only [concreta, procesar_map k hk cs m hm]

theorem concreta_tramas (k : Nat) (cs : List Char) (n : Int) :
    (concreta k cs n).tramasProcesadas = n := rfl

theorem sesionInicial_eq : sesionInicial = some (concreta 0 [] 0) := by
  unfold sesionInicial
  rw [nuevo_eq]
  rfl

theorem decodificar_eq (lecturas : List (Option (List Char))) :
    decodificar lecturas = bucle lecturas (concreta 0 [] 0) := by
  unfold decodificar
  rw [sesionInicial_eq]

/-- A read that is null, empty, or a line other than `"FIN"` without a frame
leaves the session as it is and the loop goes on; `"FIN"` leaves the session
as it is and breaks the loop. -/
theorem iteracion_sin_trama (s : Sesion) (lec : Option (List Char))
    (h : parsearTrama lec = none) :
    iteracion s lec = some (if lec = some finLinea then Paso.salir s else Paso.continuar s) := by
  cases lec with
  | none => simp [iteracion]
  | some l =>
    by_cases hnil : l = []
    · subst hnil
      have : ¬ (([] : List Char) = finLinea) := by decide
      simp [iteracion, this]
    · by_cases hfin : l = finLinea
      · subst hfin
        simp [iteracion, strcmpCero, finLinea]
      · have hfin2 : ¬ (l = "FIN".toList) := hfin
        simp only [iteracion, if_neg hnil, strcmpCero, decide_eq_true_eq, if_neg hfin2, h,
          Option.some.injEq, if_neg hfin]

theorem iteracion_fin (s : Sesion) : iteracion s (some finLinea) = some (Paso.salir s) := by
  rw [iteracion_sin_trama s _ parsearTrama_fin, if_pos rfl]

/-- Only the line `"FIN"` makes a pass of the loop body end at the `break`. -/
theorem iteracion_salir (s s1 : Sesion) (lec : Option (List Char))
    (h : iteracion s lec = some (Paso.salir s1)) : lec = some finLinea := by
  cases lec with
  | none => simp [iteracion] at h
  | some l =>
    by_cases hnil : l = []
    · subst hnil
      simp [iteracion] at h
    · by_cases hfin : l = finLinea
      · rw [hfin]
      · have hfin2 : ¬ (l = "FIN".toList) := hfin
        simp only [iteracion, if_neg hnil, strcmpCero, decide_eq_true_eq, if_neg hfin2] at h
        split at h
        · simp at h
        · split at h
          · simp at h
          · simp at h

theorem bucle_fin (post : List (Option (List Char))) :
    ∀ (pre : List (Option (List Char))) (s : Sesion),
      bucle (pre ++ some finLinea :: post) s = (bucle pre s).map Estado.cerrar := by
  intro pre
  induction pre with
  | nil =>
    intro s
    simp only [List.nil_append, bucle, iteracion_fin]
    split_ifs <;> rfl
  | cons lec pre ih =>
    intro s
    simp only [List.cons_append, bucle]
    split_ifs with hn
    · cases hit : iteracion s lec with
      | none => rfl
      | some p =>
        cases p with
        | continuar s1 => exact ih s1
        | salir s1 => rfl
    · rfl

theorem bucle_terminado_append (post : List (Option (List Char))) :
    ∀ (pre : List (Option (List Char))) (s s1 : Sesion),
      bucle pre s = some (Estado.terminado s1) →
      bucle (pre ++ post) s = some (Estado.terminado s1) := by
  intro pre
  induction pre with
  | nil =>
    intro s s1 h
    simp only [bucle] at h
    split_ifs at h with hn
    · simp at h
    simp only [Option.some.injEq, Estado.terminado.injEq] at h
    subst h
    cases post with
    | nil => simp [bucle, hn]
    | cons l ls => simp [bucle, hn]
  | cons lec pre ih =>
    intro s s1 h
    simp only [List.cons_append, bucle] at h ⊢
    split_ifs at h ⊢ with hn
    · cases hit : iteracion s lec with
      | none => rw [hit] at h; simp at h
      | some p =>
        rw [hit] at h
        cases p with
        | continuar s2 => exact ih s2 s1 h
        | salir s2 => exact h
    · exact h

theorem bucle_saltar (lec : Option (List Char)) (ls : List (Option (List Char))) (s : Sesion)
    (hfin : lec ≠ some finLinea) (hp : parsearTrama lec = none) :
    bucle (lec :: ls) s = bucle ls s := by
  simp only [bucle, iteracion_sin_trama s lec hp, if_neg hfin]
  split_ifs with hn
  · rfl
  · cases ls with
    | nil => simp [bucle, hn]
    | cons l ls => simp [bucle, hn]

/-- Reads without a frame, other than `"FIN"`, can be dropped from the input. -/
theorem bucle_filter : ∀ (pre : List (Option (List Char))) (s : Sesion),
    (∀ x ∈ pre, x ≠ some finLinea) →
    bucle (pre.filter esTramaValida) s = bucle pre s := by
  intro pre
  induction pre with
  | nil => intro s _; rfl
  | cons lec pre ih =>
    intro s hpre
    have hlec : lec ≠ some finLinea := hpre lec (List.mem_cons_self _ _)
    have hrest : ∀ x ∈ pre, x ≠ some finLinea := fun x hx => hpre x (List.mem_cons_of_mem _ hx)
    cases hp : parsearTrama lec with
    | none =>
      have hv : esTramaValida lec = false := by simp [esTramaValida, hp]
      rw [List.filter_cons_of_neg (by simp [hv]), bucle_saltar lec pre s hlec hp]
      exact ih s hrest
    | some t =>
      have hv : esTramaValida lec = true := by simp [esTramaValida, hp]
      rw [List.filter_cons_of_pos hv]
      simp only [bucle]
      split_ifs with hn
      · cases hit : iteracion s lec with
        | none => rfl
        | some p =>
          cases p with
          | continuar s1 => exact ih s1 hrest
          | salir s1 => rfl
      · rfl

/-- From a session in closed form the loop always yields a state, again in
closed form, and the counter stays within the cap. -/
theorem bucle_total : ∀ (ls : List (Option (List Char))) (k : Nat) (cs : List Char) (n : Int),
    k < 26 → 0 ≤ n → n ≤ MAX_TRAMAS →
    ∃ e k1 cs1 n1, bucle ls (concreta k cs n) = some e ∧ e.sesion = concreta k1 cs1 n1 ∧
      k1 < 26 ∧ 0 ≤ n1 ∧ n1 ≤ MAX_TRAMAS := by
  intro ls
  induction ls with
  | nil =>
    intro k cs n hk h0 hn
    simp only [bucle]
    split_ifs
    · exact ⟨_, k, cs, n, rfl, rfl, hk, h0, hn⟩
    · exact ⟨_, k, cs, n, rfl, rfl, hk, h0, hn⟩
  | cons lec ls ih =>
    intro k cs n hk h0 hn
    simp only [bucle, iteracion_concreta k hk cs n lec, concreta_tramas]
    split_ifs with hlt hfin
    · exact ⟨_, k, cs, n, rfl, rfl, hk, h0, hn⟩
    · have hn1 : n + 1 ≤ MAX_TRAMAS := by unfold MAX_TRAMAS at *; omega
      cases hp : parsearTrama lec with
      | none => exact ih k cs n hk h0 hn
      | some t =>
        cases t with
        | TramaLoad c => exact ih k _ (n + 1) hk (by omega) hn1
        | TramaMap m => exact ih (girar k m) cs (n + 1) (girar_lt k hk m) (by omega) hn1
    · exact ⟨_, k, cs, n, rfl, rfl, hk, h0, hn⟩

/-- Once the reads hold exactly as many frames as the cap still allows, and no
`"FIN"`, the loop is left with the counter on the cap. -/
theorem bucle_tope : ∀ (pre : List (Option (List Char))) (k : Nat) (cs : List Char) (n : Int),
    k < 26 → (∀ x ∈ pre, x ≠ some finLinea) →
    n + ((pre.filter esTramaValida).length : Int) = MAX_TRAMAS →
    ∃ k1 cs1, k1 < 26 ∧
      bucle pre (concreta k cs n) = some (Estado.terminado (concreta k1 cs1 MAX_TRAMAS)) := by
  intro pre
  induction pre with
  | nil =>
    intro k cs n hk _ hn
    simp only [List.filter_nil, List.length_nil, Int.Nat.cast_ofNat_Int, add_zero] at hn
    subst hn
    exact ⟨k, cs, hk, by simp [bucle, concreta_tramas]⟩
  | cons lec pre ih =>
    intro k cs n hk hpre hn
    have hlec : lec ≠ some finLinea := hpre lec (List.mem_cons_self _ _)
    have hrest : ∀ x ∈ pre, x ≠ some finLinea := fun x hx => hpre x (List.mem_cons_of_mem _ hx)
    simp only [bucle, iteracion_concreta k hk cs n lec, if_neg hlec, concreta_tramas]
    cases hp : parsearTrama lec with
    | none =>
      have hv : esTramaValida lec = false := by simp [esTramaValida, hp]
      rw [List.filter_cons_of_neg (by simp [hv])] at hn
      split_ifs with hlt
      · exact ih k cs n hk hrest hn
      · have h100 : n = MAX_TRAMAS := by omega
        subst h100
        exact ⟨k, cs, hk, rfl⟩
    | some t =>
      have hv : esTramaValida lec = true := by simp [esTramaValida, hp]
      rw [List.filter_cons_of_pos hv, List.length_cons] at hn
      have hlt : n < MAX_TRAMAS := by push_cast at hn; omega
      rw [if_pos hlt]
      cases t with
      | TramaLoad c => exact ih k _ (n + 1) hk hrest (by push_cast at hn; omega)
      | TramaMap m => exact ih (girar k m) cs (n + 1) (girar_lt k hk m) hrest (by push_cast at hn; omega)

/-! ## Rotor: the mapping and the rotation -/

/-- For every `int` other than `INT_MIN`, `rotar` succeeds on a reachable rotor
with net offset `o` and leaves it with net offset `normalize (o + n)`. -/
theorem rotar_offset (r : RotorDeMapeo) (hr : Alcanzable r) (n : Int) (hn : esInt n)
    (hmin : n ≠ INT_MIN) :
    ∃ o r1, r.offset = some o ∧ r.rotar n = some r1 ∧
      r1.offset = some (normalize ((o : Int) + n)).toNat := by
  obtain ⟨k, hk, rfl⟩ := alcanzable_forma r hr
  refine ⟨k, _, offset_anillo k hk, rotar_anillo k hk n hn hmin, ?_⟩
  rw [normalize_eq_emod]
  exact offset_anillo _ (by omega)

/-- C1: on every rotor reached from a fresh one by `rotar` calls, whose net
offset `o` is the alphabet index of the letter at the head, `getMapeo` sends
every uppercase letter `c` to the letter `'A' + normalize ((c - 'A') + o)`. -/
theorem getMapeo_letra (r : RotorDeMapeo) (hr : Alcanzable r) (c : Char)
    (hc : esMayuscula c = true) :
    ∃ o : Nat, r.offset = some o ∧
      r.getMapeo c
        = some (Char.ofNat ('A'.toNat
            + (normalize (((c.toNat : Int) - ('A'.toNat : Int)) + (o : Int))).toNat)) := by
  obtain ⟨k, hk, rfl⟩ := alcanzable_forma r hr
  refine ⟨k, offset_anillo k hk, ?_⟩
  have hc2 := (esMayuscula_iff c).1 hc
  have hA : 'A'.toNat = 65 := rfl
  rw [getMapeo_anillo k hk c hc, normalize_eq_emod, hA]
  congr 3
  omega

/-- The rotor with the head three nodes forward is reachable. -/
theorem alcanzable_tres : Alcanzable { mem := anillo, cabeza := some 3 } :=
  Alcanzable.rotar _ _ 3 (Alcanzable.nuevo _ nuevo_eq) (by decide) (by decide)

/-- C1 at the rotor turned by three and the letter `Y`. -/
theorem getMapeo_letra_witness :
    Alcanzable { mem := anillo, cabeza := some 3 } ∧ esMayuscula 'Y' = true ∧
    ∃ o : Nat, RotorDeMapeo.offset { mem := anillo, cabeza := some 3 } = some o ∧
      RotorDeMapeo.getMapeo { mem := anillo, cabeza := some 3 } 'Y'
        = some (Char.ofNat ('A'.toNat
            + (normalize ((('Y'.toNat : Int) - ('A'.toNat : Int)) + (o : Int))).toNat)) :=
  ⟨alcanzable_tres, by decide, getMapeo_letra _ alcanzable_tres 'Y' (by decide)⟩

/-- C2: on a fresh rotor (net offset 0) `rotar(INT_MIN)` returns with the net
offset still 0, while `normalize (0 + INT_MIN)` is 2: the bound `-n` of the
backward loop wraps to `INT_MIN` and the loop body never runs. -/
theorem rotar_int_min_sin_efecto :
    esInt INT_MIN ∧
    ∃ r r1, RotorDeMapeo.nuevo = some r ∧ r.offset = some 0 ∧
      r.rotar INT_MIN = some r1 ∧ r1.offset = some 0 ∧
      normalize ((0 : Int) + INT_MIN) = 2 := by
  refine ⟨by decide, _, _, nuevo_eq, offset_anillo 0 (by decide), rotar_anillo_min 0,
    offset_anillo 0 (by decide), ?_⟩
  rw [normalize_eq_emod]
  decide

/-- C4: in every rotor state `getMapeo(' ')` is `' '`, and every character
that is not an uppercase letter is returned unchanged. -/
theorem getMapeo_no_letra (r : RotorDeMapeo) :
    r.getMapeo ' ' = some ' ' ∧
    ∀ c : Char, esMayuscula c = false → r.getMapeo c = some c :=
  ⟨getMapeo_espacio r, fun c hc => getMapeo_otro r c hc⟩

/-- C4 at the rotor turned by three and the character `a`. -/
theorem getMapeo_no_letra_witness :
    esMayuscula 'a' = false ∧
    RotorDeMapeo.getMapeo { mem := anillo, cabeza := some 3 } 'a' = some 'a' :=
  ⟨by decide, (getMapeo_no_letra { mem := anillo, cabeza := some 3 }).2 'a' (by decide)⟩

/-! ## The frame parser -/

theorem wrapInt_of_esInt (x : Int) (hx : esInt x) : wrapInt x = x := by
  unfold esInt INT_MIN INT_MAX at hx
  unfold wrapInt
  omega

theorem atoi_of_esInt (s : List Char) (hv : esInt (valorSignoDigitos (s.dropWhile isspace))) :
    atoi s = valorSignoDigitos (s.dropWhile isspace) := by
  have hv2 := hv
  unfold esInt INT_MIN INT_MAX at hv2
  have h1 : strtol s = valorSignoDigitos (s.dropWhile isspace) := by
    unfold strtol LONG_MIN LONG_MAX
    simp only
    rw [if_neg (by omega), if_neg (by omega)]
  unfold atoi
  rw [h1, wrapInt_of_esInt _ hv]

/-- A line of at least three characters that starts with the two given ones. -/
theorem linea_forma (l : List Char) (a b : Char) (hlen : 3 ≤ l.length) (hpre : l.take 2 = [a, b]) :
    ∃ c rest, l = a :: b :: c :: rest := by
  match l, hlen, hpre with
  | x :: y :: c :: rest, _, hpre =>
    simp only [List.take_succ_cons, List.take_zero, List.cons.injEq, and_true] at hpre
    exact ⟨c, rest, by rw [hpre.1, hpre.2]⟩

/-- C5: `parsearTrama` returns no frame exactly when the line is empty, or
shorter than 3, or has no `','` at index 1, or starts with neither `'L'` nor
`'M'`; every other line gives a frame.  The lines `""`, `"L"`, `"LA"` and
`"Z,9"` give none. -/
theorem parsearTrama_falla_iff :
    (∀ l : List Char, parsearTrama (some l) = none ↔
      (l = [] ∨ l.length < 3 ∨ charAt l 1 ≠ ',' ∨ (charAt l 0 ≠ 'L' ∧ charAt l 0 ≠ 'M'))) ∧
    (∀ l : List Char,
      ¬ (l = [] ∨ l.length < 3 ∨ charAt l 1 ≠ ',' ∨ (charAt l 0 ≠ 'L' ∧ charAt l 0 ≠ 'M')) →
      ∃ t, parsearTrama (some l) = some t) ∧
    parsearTrama (some "".toList) = none ∧ parsearTrama (some "L".toList) = none ∧
    parsearTrama (some "LA".toList) = none ∧ parsearTrama (some "Z,9".toList) = none := by
  have key : ∀ l : List Char, parsearTrama (some l) = none ↔
      (l = [] ∨ l.length < 3 ∨ charAt l 1 ≠ ',' ∨ (charAt l 0 ≠ 'L' ∧ charAt l 0 ≠ 'M')) := by
    intro l
    cases l with
    | nil => simp [parsearTrama]
    | cons a t =>
      have hne : ¬ (a :: t = []) := by simp
      simp only [parsearTrama, Bool.or_eq_true, decide_eq_true_eq, bne_iff_ne, ne_eq]
      by_cases h1 : (a :: t).length < 3 ∨ ¬ charAt (a :: t) 1 = ','
      · rw [if_pos h1]
        exact ⟨fun _ => h1.elim (fun h => Or.inr (Or.inl h)) (fun h => Or.inr (Or.inr (Or.inl h))),
          fun _ => rfl⟩
      · rw [if_neg h1]
        push_neg at h1
        have h3 : ¬ (a :: t).length < 3 := by omega
        have h4 : ¬ ¬ charAt (a :: t) 1 = ',' := by simp [h1.2]
        by_cases hL : charAt (a :: t) 0 = 'L'
        · rw [if_pos hL]
          constructor
          · intro h
            split_ifs at h
          · rintro (h | h | h | ⟨h, _⟩)
            · exact absurd h hne
            · exact absurd h h3
            · exact absurd h h4
            · exact absurd hL h
        · rw [if_neg hL]
          by_cases hM : charAt (a :: t) 0 = 'M'
          · rw [if_pos hM]
            constructor
            · intro h
              exact absurd h (by simp)
            · rintro (h | h | h | ⟨_, h⟩)
              · exact absurd h hne
              · exact absurd h h3
              · exact absurd h h4
              · exact absurd hM h
          · rw [if_neg hM]
            exact ⟨fun _ => Or.inr (Or.inr (Or.inr ⟨hL, hM⟩)), fun _ => rfl⟩
  refine ⟨key, ?_, by decide, by decide, by decide, by decide⟩
  intro l hl
  cases h : parsearTrama (some l) with
  | none => exact absurd ((key l).1 h) hl
  | some t => exact ⟨t, rfl⟩

/-- C5 at the line `"M,7"`, which gives a frame. -/
theorem parsearTrama_falla_iff_witness : ∃ t, parsearTrama (some "M,7".toList) = some t :=
  parsearTrama_falla_iff.2.1 "M,7".toList (by decide)

/-- C6: a line of length at least 3 that starts with `"L,"` gives a Load frame
whose symbol is `' '` when the payload is exactly `"Space"` and the first
character of the payload otherwise, the rest of the payload being ignored. -/
theorem parsearTrama_load :
    (∀ l : List Char, 3 ≤ l.length → l.take 2 = ['L', ','] →
      parsearTrama (some l)
        = some (TramaBase.TramaLoad
            (if l.drop 2 = "Space".toList then ' ' else charAt (l.drop 2) 0))) ∧
    parsearTrama (some "L,Space".toList) = some (TramaBase.TramaLoad ' ') ∧
    parsearTrama (some "L,A".toList) = some (TramaBase.TramaLoad 'A') ∧
    parsearTrama (some "L,Spaces".toList) = some (TramaBase.TramaLoad 'S') ∧
    parsearTrama (some "L,AB".toList) = some (TramaBase.TramaLoad 'A') := by
  refine ⟨?_, by decide, by decide, by decide, by decide⟩
  intro l hlen hpre
  obtain ⟨c, rest, rfl⟩ := linea_forma l 'L' ',' hlen hpre
  simp only [parsearTrama, strcmpCero, charAt]
  by_cases h : c :: rest = "Space".toList
  · simp [h]
  · have h2 : ¬ (c = 'S' ∧ rest = ['p', 'a', 'c', 'e']) := by
      rintro ⟨rfl, rfl⟩
      exact h rfl
    simp [h2]

/-- C6 at the line `"L,Q7"`. -/
theorem parsearTrama_load_witness :
    parsearTrama (some "L,Q7".toList) = some (TramaBase.TramaLoad 'Q') :=
  parsearTrama_load.1 "L,Q7".toList (by decide) (by decide)

/-- C7, as claimed, fails on the line `"M, 5"`: read as an optional sign and
digits, the payload `" 5"` has no digit before its first non-digit and is
worth 0, but `atoi` skips the blank and the frame is Map(5). -/
theorem parsearTrama_map_espacio :
    3 ≤ "M, 5".toList.length ∧ "M, 5".toList.take 2 = ['M', ','] ∧
    valorSignoDigitos ("M, 5".toList.drop 2) = 0 ∧
    parsearTrama (some "M, 5".toList) = some (TramaBase.TramaMap 5) ∧
    parsearTrama (some "M, 5".toList)
      ≠ some (TramaBase.TramaMap (valorSignoDigitos ("M, 5".toList.drop 2))) := by
  decide

/-- C7, amended: a line of length at least 3 that starts with `"M,"` gives a
Map frame whose rotation is the value of the payload, after its leading white
space, read as an optional sign followed by decimal digits up to the first
non-digit (0 when there is no digit), provided that value fits an `int`. -/
theorem parsearTrama_map :
    (∀ l : List Char, 3 ≤ l.length → l.take 2 = ['M', ','] →
      esInt (valorSignoDigitos ((l.drop 2).dropWhile isspace)) →
      parsearTrama (some l)
        = some (TramaBase.TramaMap (valorSignoDigitos ((l.drop 2).dropWhile isspace)))) ∧
    parsearTrama (some "M,5".toList) = some (TramaBase.TramaMap 5) ∧
    parsearTrama (some "M,-3".toList) = some (TramaBase.TramaMap (-3)) ∧
    parsearTrama (some "M,abc".toList) = some (TramaBase.TramaMap 0) ∧
    parsearTrama (some "M, 5".toList) = some (TramaBase.TramaMap 5) := by
  refine ⟨?_, by decide, by decide, by decide, by decide⟩
  intro l hlen hpre hv
  obtain ⟨c, rest, rfl⟩ := linea_forma l 'M' ',' hlen hpre
  simp only [List.drop_succ_cons, List.drop_zero] at hv
  simp [parsearTrama, charAt, atoi_of_esInt _ hv]

/-- C7, amended, at the line `"M, -12x"`. -/
theorem parsearTrama_map_witness :
    parsearTrama (some "M, -12x".toList) = some (TramaBase.TramaMap (-12)) :=
  parsearTrama_map.1 "M, -12x".toList (by decide) (by decide) (by decide)

/-! ## The decode loop -/

theorem mapeoEn_eq_mapChar (k : Nat) (suma : Int) (h : suma % 26 = (k : Int)) (c : Char) :
    mapeoEn k c = mapChar (normalize suma) c := by
  unfold mapeoEn mapChar
  by_cases hsp : c = ' '
  · rw [if_pos hsp, if_pos hsp]
  · rw [if_neg hsp, if_neg hsp]
    cases hc : esMayuscula c with
    | false => simp
    | true =>
      have hc2 := (esMayuscula_iff c).1 hc
      have hA : 'A'.toNat = 65 := rfl
      simp only [if_true, normalize_eq_emod, hA]
      congr 2
      omega

theorem girar_eq_normalize (k : Nat) (suma m : Int) (h : suma % 26 = (k : Int))
    (hm : m ≠ INT_MIN) : (suma + m) % 26 = ((girar k m : Nat) : Int) := by
  unfold girar
  rw [if_neg hm]
  omega

/-- From a session in closed form whose head node is the offset of the
reference decoder, the loop appends the reference message to the buffer,
unless a processed Map frame carries `INT_MIN`. -/
theorem bucle_refina : ∀ (ls : List (Option (List Char))) (k : Nat) (cs : List Char)
    (n suma : Int), k < 26 → 0 ≤ n → n ≤ MAX_TRAMAS → suma % 26 = (k : Int) →
    (∀ t ∈ procesadas (MAX_TRAMAS - n).toNat ls, t ≠ TramaBase.TramaMap INT_MIN) →
    ∃ e k1 n1, bucle ls (concreta k cs n) = some e ∧
      e.sesion = concreta k1
        (cs ++ mensajeReferencia suma (procesadas (MAX_TRAMAS - n).toNat ls)) n1 := by
  intro ls
  induction ls with
  | nil =>
    intro k cs n suma hk h0 hn hs _
    have hp : procesadas (MAX_TRAMAS - n).toNat [] = [] := by
      cases (MAX_TRAMAS - n).toNat <;> rfl
    rw [hp]
    simp only [bucle, mensajeReferencia, List.append_nil]
    split_ifs
    · exact ⟨_, k, n, rfl, rfl⟩
    · exact ⟨_, k, n, rfl, rfl⟩
  | cons lec ls ih =>
    intro k cs n suma hk h0 hn hs hmin
    simp only [bucle, iteracion_concreta k hk cs n lec, concreta_tramas]
    by_cases hlt : n < MAX_TRAMAS
    · obtain ⟨cap, hcap⟩ : ∃ cap, (MAX_TRAMAS - n).toNat = cap + 1 :=
        ⟨(MAX_TRAMAS - n).toNat - 1, by omega⟩
      have hcap1 : (MAX_TRAMAS - (n + 1)).toNat = cap := by omega
      have hn1 : n + 1 ≤ MAX_TRAMAS := by omega
      rw [hcap] at hmin ⊢
      rw [if_pos hlt]
      by_cases hfin : lec = some finLinea
      · have hfin2 : lec = some "FIN".toList := hfin
        simp only [procesadas, if_pos hfin, if_pos hfin2, mensajeReferencia, List.append_nil]
        exact ⟨_, k, n, rfl, rfl⟩
      · have hfin2 : ¬ (lec = some "FIN".toList) := hfin
        simp only [procesadas, if_neg hfin, if_neg hfin2] at hmin ⊢
        cases hp : parsearTrama lec with
        | none =>
          rw [hp] at hmin
          have := ih k cs n suma hk h0 hn hs (by rw [hcap]; exact hmin)
          rw [hcap] at this
          exact this
        | some t =>
          rw [hp] at hmin
          have hrest : ∀ t1 ∈ procesadas cap ls, t1 ≠ TramaBase.TramaMap INT_MIN :=
            fun t1 h1 => hmin t1 (List.mem_cons_of_mem _ h1)
          cases t with
          | TramaLoad c =>
            have := ih k (cs ++ [mapeoEn k c]) (n + 1) suma hk (by omega) hn1 hs
              (by rw [hcap1]; exact hrest)
            rw [hcap1, List.append_assoc] at this
            show ∃ e k1 n1, bucle ls (concreta k (cs ++ [mapeoEn k c]) (n + 1)) = some e ∧
              e.sesion = concreta k1
                (cs ++ mensajeReferencia suma (TramaBase.TramaLoad c :: procesadas cap ls)) n1
            simp only [mensajeReferencia, ← mapeoEn_eq_mapChar k suma hs]
            exact this
          | TramaMap m =>
            have hm : m ≠ INT_MIN := fun h =>
              hmin (TramaBase.TramaMap m) (List.mem_cons_self _ _) (by rw [h])
            have := ih (girar k m) cs (n + 1) (suma + m) (girar_lt k hk m) (by omega) hn1
              (girar_eq_normalize k suma m hs hm) (by rw [hcap1]; exact hrest)
            rw [hcap1] at this
            exact this
    · have hz : (MAX_TRAMAS - n).toNat = 0 := by omega
      rw [if_neg hlt, hz]
      simp only [procesadas, mensajeReferencia, List.append_nil]
      exact ⟨_, k, n, rfl, rfl⟩

/-- The decode loop with the circular rotor prints the message of the
reference decoder for every sequence of reads in which no processed Map frame
carries `INT_MIN`. -/
theorem decodificar_refina (lecturas : List (Option (List Char)))
    (hmin : ∀ t ∈ procesadas 100 lecturas, t ≠ TramaBase.TramaMap INT_MIN) :
    ∃ e, decodificar lecturas = some e ∧
      e.mensaje = some (render (mensajeReferencia 0 (procesadas 100 lecturas)) ++ ['\n']) := by
  obtain ⟨e, k1, n1, h1, h2⟩ :=
    bucle_refina lecturas 0 [] 0 0 (by decide) (by decide) (by decide) (by decide) hmin
  refine ⟨e, by rw [decodificar_eq]; exact h1, ?_⟩
  have h3 : (MAX_TRAMAS - 0).toNat = 100 := by decide
  rw [h3, List.nil_append] at h2
  unfold Estado.mensaje
  rw [h2]
  show (listaDe _).imprimirMensaje = _
  rw [imprimirMensaje_listaDe]
  unfold render
  split_ifs <;> rfl

/-- C3: on the lines `"M,-2147483648"`, `"L,A"`, `"FIN"` the decode loop prints
`"A"`, while the reference decoder, whose offset is `normalize (-2147483648)`,
that is 2, gives `"C"`: `rotar(INT_MIN)` does not turn the rotor. -/
theorem decodificar_int_min :
    (decodificar (lineas ["M,-2147483648", "L,A", "FIN"])).bind Estado.mensaje
      = some "A\n".toList ∧
    procesadas 100 (lineas ["M,-2147483648", "L,A", "FIN"])
      = [TramaBase.TramaMap INT_MIN, TramaBase.TramaLoad 'A'] ∧
    render (mensajeReferencia 0 (procesadas 100 (lineas ["M,-2147483648", "L,A", "FIN"])))
      = "C".toList := by
  decide

/-- The two sample sessions of the specification print `"BC"` and `" A"`. -/
theorem decodificar_ejemplos :
    (decodificar (lineas ["M,1", "L,A", "L,B", "FIN"])).bind Estado.mensaje
      = some "BC\n".toList ∧
    (decodificar (lineas ["L,Space", "M,26", "L,A", "FIN"])).bind Estado.mensaje
      = some " A\n".toList := by
  decide

/-- C8: for every session state, a pass of the loop body over a line that is
empty or on which `parsearTrama` fails leaves the rotor, the message buffer and
the counter `tramasProcesadas` as they were. -/
theorem iteracion_linea_rechazada (s : Sesion) (l : List Char)
    (h : l = [] ∨ parsearTrama (some l) = none) :
    ∃ p, iteracion s (some l) = some p ∧ p.sesion = s ∧
      p.sesion.rotor.offset = s.rotor.offset ∧
      p.sesion.listaCarga.imprimirMensaje = s.listaCarga.imprimirMensaje ∧
      p.sesion.tramasProcesadas = s.tramasProcesadas := by
  have hp : parsearTrama (some l) = none := by
    rcases h with h | h
    · rw [h]
      rfl
    · exact h
  rw [iteracion_sin_trama s _ hp]
  split_ifs
  · exact ⟨_, rfl, rfl, rfl, rfl, rfl⟩
  · exact ⟨_, rfl, rfl, rfl, rfl, rfl⟩

/-- C8 at the session after `"M,3"`, `"L,A"` and the line `"Z,9"`. -/
theorem iteracion_linea_rechazada_witness :
    ("Z,9".toList = [] ∨ parsearTrama (some "Z,9".toList) = none) ∧
    ∃ p, iteracion (concreta 3 ['D'] 2) (some "Z,9".toList) = some p ∧
      p.sesion = concreta 3 ['D'] 2 ∧
      p.sesion.rotor.offset = (concreta 3 ['D'] 2).rotor.offset ∧
      p.sesion.listaCarga.imprimirMensaje = (concreta 3 ['D'] 2).listaCarga.imprimirMensaje ∧
      p.sesion.tramasProcesadas = (concreta 3 ['D'] 2).tramasProcesadas :=
  ⟨Or.inr (by decide),
    iteracion_linea_rechazada (concreta 3 ['D'] 2) "Z,9".toList (Or.inr (by decide))⟩

/-- C9: every state of the decode loop has `tramasProcesadas <= MAX_TRAMAS`; and
when the reads hold 100 valid frames and no `"FIN"`, the loop is left there
with the counter at 100, whatever is read afterwards, in the state that the
100 valid frames alone produce. -/
theorem bucle_respeta_tope :
    (∀ lecturas : List (Option (List Char)),
      ∃ e, decodificar lecturas = some e ∧ e.sesion.tramasProcesadas ≤ MAX_TRAMAS) ∧
    (∀ pre post : List (Option (List Char)),
      (∀ x ∈ pre, x ≠ some finLinea) → (pre.filter esTramaValida).length = 100 →
      ∃ s, decodificar (pre ++ post) = some (Estado.terminado s) ∧
        s.tramasProcesadas = 100 ∧
        decodificar pre = some (Estado.terminado s) ∧
        decodificar (pre.filter esTramaValida) = some (Estado.terminado s)) := by
  constructor
  · intro lecturas
    obtain ⟨e, k1, cs1, n1, h1, h2, _, _, h5⟩ :=
      bucle_total lecturas 0 [] 0 (by decide) (by decide) (by decide)
    refine ⟨e, by rw [decodificar_eq]; exact h1, ?_⟩
    rw [h2]
    exact h5
  · intro pre post hpre hlen
    obtain ⟨k1, cs1, _, h1⟩ :=
      bucle_tope pre 0 [] 0 (by decide) hpre (by rw [hlen]; decide)
    refine ⟨concreta k1 cs1 MAX_TRAMAS, ?_, rfl, ?_, ?_⟩
    · rw [decodificar_eq]
      exact bucle_terminado_append post pre _ _ h1
    · rw [decodificar_eq]
      exact h1
    · rw [decodificar_eq, bucle_filter pre _ hpre]
      exact h1

/-- C10: once `"FIN"` is read the loop is left in the session built from the
reads before it, whatever follows; and a pass of the loop body ends at the
`break` for the line `"FIN"` and for no other read. -/
theorem bucle_fin_termina :
    (∀ pre post : List (Option (List Char)),
      ∃ e, decodificar pre = some e ∧
        decodificar (pre ++ some finLinea :: post) = some (Estado.terminado e.sesion)) ∧
    (∀ (s : Sesion) (lec : Option (List Char)),
      (∃ s1, iteracion s lec = some (Paso.salir s1)) ↔ lec = some finLinea) ∧
    (∀ s : Sesion, iteracion s (some finLinea) = some (Paso.salir s)) ∧
    iteracion (concreta 0 [] 0) (some "FINAL".toList) = some (Paso.continuar (concreta 0 [] 0)) ∧
    iteracion (concreta 0 [] 0) (some "XFIN".toList) = some (Paso.continuar (concreta 0 [] 0)) ∧
    iteracion (concreta 0 [] 0) (some "FIN ".toList) = some (Paso.continuar (concreta 0 [] 0)) := by
  refine ⟨?_, ?_, iteracion_fin, by decide, by decide, by decide⟩
  · intro pre post
    obtain ⟨e, k1, cs1, n1, h1, _⟩ :=
      bucle_total pre 0 [] 0 (by decide) (by decide) (by decide)
    refine ⟨e, by rw [decodificar_eq]; exact h1, ?_⟩
    rw [decodificar_eq, bucle_fin post pre, h1]
    rfl
  · intro s lec
    constructor
    · rintro ⟨s1, h⟩
      exact iteracion_salir s s1 lec h
    · intro h
      rw [h]
      exact ⟨s, iteracion_fin s⟩

/-- C10 at the reads `"M,1"`, `"L,A"` before `"FIN"` and `"L,B"` after it. -/
theorem bucle_fin_termina_witness :
    ∃ e, decodificar (lineas ["M,1", "L,A"]) = some e ∧
      decodificar (lineas ["M,1", "L,A"] ++ some finLinea :: lineas ["L,B"])
        = some (Estado.terminado e.sesion) :=
  bucle_fin_termina.1 (lineas ["M,1", "L,A"]) (lineas ["L,B"])

/-- A hundred reads of the line `"L,A"`. -/
theorem cien_lineas :
    (∀ x ∈ List.replicate 100 (some "L,A".toList), x ≠ some finLinea) ∧
    ((List.replicate 100 (some "L,A".toList)).filter esTramaValida).length = 100 := by
  constructor
  · intro x hx
    rw [List.eq_of_mem_replicate hx]
    decide
  · have hv : esTramaValida (some "L,A".toList) = true := by decide
    rw [List.filter_eq_self.2 (fun x hx => by rw [List.eq_of_mem_replicate hx]; exact hv)]
    exact List.length_replicate _ _

/-- C9 at a hundred reads of `"L,A"` followed by `"L,B"`. -/
theorem bucle_respeta_tope_witness :
    (∀ x ∈ List.replicate 100 (some "L,A".toList), x ≠ some finLinea) ∧
    ((List.replicate 100 (some "L,A".toList)).filter esTramaValida).length = 100 ∧
    ∃ s, decodificar (List.replicate 100 (some "L,A".toList) ++ lineas ["L,B"])
          = some (Estado.terminado s) ∧
      s.tramasProcesadas = 100 ∧
      decodificar (List.replicate 100 (some "L,A".toList)) = some (Estado.terminado s) ∧
      decodificar ((List.replicate 100 (some "L,A".toList)).filter esTramaValida)
        = some (Estado.terminado s) :=
  ⟨cien_lineas.1, cien_lineas.2,
    bucle_respeta_tope.2 (List.replicate 100 (some "L,A".toList)) (lineas ["L,B"])
      cien_lineas.1 cien_lineas.2⟩

/-! ## A read that delivers no line -/

theorem bucle_saltar_medio (lec : Option (List Char)) (post : List (Option (List Char)))
    (hfin : lec ≠ some finLinea) (hp : parsearTrama lec = none) :
    ∀ (pre : List (Option (List Char))) (s : Sesion),
      bucle (pre ++ lec :: post) s = bucle (pre ++ post) s := by
  intro pre
  induction pre with
  | nil =>
    intro s
    exact bucle_saltar lec post s hfin hp
  | cons x pre ih =>
    intro s
    simp only [List.cons_append, bucle]
    split_ifs with hn
    · cases hit : iteracion s x with
      | none => rfl
      | some p =>
        cases p with
        | continuar s1 => exact ih s1
        | salir s1 => rfl
    · rfl

/-- C11, as claimed, fails on the reads `"L,A"`, `nullptr`, `"L,B"`, `"FIN"`: after
the null read the loop is still asking for a line, and the line `"L,B"` that
follows is processed, so the final message is `"AB"` and not the `"A"` that was
buffered before the null read. -/
theorem decodificar_lectura_nula :
    decodificar [some "L,A".toList, none] = some (Estado.esperando (concreta 0 ['A'] 1)) ∧
    (decodificar [some "L,A".toList]).bind Estado.mensaje = some "A\n".toList ∧
    (decodificar [some "L,A".toList, none, some "L,B".toList, some "FIN".toList]).bind
        Estado.mensaje = some "AB\n".toList ∧
    (decodificar [some "L,A".toList, none, some "L,B".toList, some "FIN".toList]).bind
        Estado.mensaje ≠ (decodificar [some "L,A".toList]).bind Estado.mensaje := by
  decide

/-- C11, amended: when `leerLinea` returns `nullptr` the decode loop does not
end; that pass leaves the session (rotor, buffer, counter) as it was and the
loop asks for the next line, so the reads that follow are processed as if the
null read had not occurred. -/
theorem bucle_lectura_nula :
    (∀ s : Sesion, iteracion s none = some (Paso.continuar s)) ∧
    (∀ (pre post : List (Option (List Char))) (s : Sesion),
      bucle (pre ++ none :: post) s = bucle (pre ++ post) s) ∧
    (∀ pre post : List (Option (List Char)),
      decodificar (pre ++ none :: post) = decodificar (pre ++ post)) := by
  refine ⟨fun s => rfl, ?_, ?_⟩
  · intro pre post s
    exact bucle_saltar_medio none post (by simp) rfl pre s
  · intro pre post
    rw [decodificar_eq, decodificar_eq]
    exact bucle_saltar_medio none post (by simp) rfl pre _

/-! ## Rotations that should cancel or coincide -/

theorem tmod_veintiseis (n : Int) :
    n.tmod 26 = if 0 ≤ n ∨ n % 26 = 0 then n % 26 else n % 26 - 26 := by
  rcases le_or_lt 0 n with hn | hn
  · rw [Int.tmod_eq_emod hn (by decide), if_pos (Or.inl hn)]
  · obtain ⟨m, rfl⟩ := Int.eq_negSucc_of_lt_zero hn
    have h1 : (Int.negSucc m).tmod 26 = -(((m + 1) % 26 : Nat) : Int) := rfl
    have h2 : Int.negSucc m = -((m : Int) + 1) := Int.negSucc_eq m
    rw [h1, h2]
    split_ifs with h <;> omega

/-- For every `int` other than `INT_MIN`, `rotar(n)` followed by
`rotar(26 - (n mod 26))` brings a reachable rotor back to where it was, with
the truncating `mod` of C as with the mathematical one. -/
theorem rotar_ida_vuelta (r : RotorDeMapeo) (hr : Alcanzable r) (n : Int) (hn : esInt n)
    (hmin : n ≠ INT_MIN) :
    ∃ r1, r.rotar n = some r1 ∧ r1.rotar (26 - n.tmod 26) = some r ∧
      r1.rotar (26 - n % 26) = some r := by
  obtain ⟨k, hk, rfl⟩ := alcanzable_forma r hr
  have ht := tmod_veintiseis n
  have hk1 : (((k : Int) + n) % 26).toNat < 26 := by omega
  refine ⟨_, rotar_anillo k hk n hn hmin, ?_, ?_⟩
  · rw [rotar_anillo _ hk1 _ (by unfold esInt INT_MIN INT_MAX; split_ifs at ht <;> omega)
      (by unfold INT_MIN; split_ifs at ht <;> omega)]
    congr 3
    split_ifs at ht <;> omega
  · rw [rotar_anillo _ hk1 _ (by unfold esInt INT_MIN INT_MAX; omega) (by unfold INT_MIN; omega)]
    congr 3
    omega

/-- C12: on a fresh rotor `rotar(INT_MIN)` followed by `rotar(26 - (INT_MIN mod 26))`
does not restore the mapping: the first call does not turn the rotor, the
second turns it by 50 (or by 24 with the mathematical `mod`), and `'A'`, which
mapped to `'A'`, now maps to `'Y'`. -/
theorem rotar_ida_vuelta_int_min :
    esInt INT_MIN ∧ 26 - INT_MIN.tmod 26 = 50 ∧ 26 - INT_MIN % 26 = 24 ∧
    ∃ r r1 r2 r3, RotorDeMapeo.nuevo = some r ∧ r.rotar INT_MIN = some r1 ∧
      r1.rotar (26 - INT_MIN.tmod 26) = some r2 ∧ r1.rotar (26 - INT_MIN % 26) = some r3 ∧
      r.getMapeo 'A' = some 'A' ∧ r2.getMapeo 'A' = some 'Y' ∧ r3.getMapeo 'A' = some 'Y' :=
  ⟨by decide, by decide, by decide,
    { mem := anillo, cabeza := some 0 }, { mem := anillo, cabeza := some 0 },
    { mem := anillo, cabeza := some 24 }, { mem := anillo, cabeza := some 24 },
    nuevo_eq, by decide, by decide, by decide, by decide, by decide, by decide⟩

/-- For `int` arguments other than `INT_MIN` that are congruent modulo 26,
`rotar` leaves a reachable rotor in the same state. -/
theorem rotar_congruentes (r : RotorDeMapeo) (hr : Alcanzable r) (n m : Int)
    (hn : esInt n) (hm : esInt m) (hnmin : n ≠ INT_MIN) (hmmin : m ≠ INT_MIN)
    (hnm : n % 26 = m % 26) :
    ∃ r1 r2, r.rotar n = some r1 ∧ r.rotar m = some r2 ∧ r1 = r2 ∧ mismoMapeo r1 r2 := by
  obtain ⟨k, hk, rfl⟩ := alcanzable_forma r hr
  have h : (((k : Int) + n) % 26).toNat = (((k : Int) + m) % 26).toNat := by omega
  refine ⟨_, _, rotar_anillo k hk n hn hnmin, rotar_anillo k hk m hm hmmin, ?_, ?_⟩
  · rw [h]
  · intro c
    rw [h]

/-- C13: `INT_MIN` and 2 are congruent modulo 26, yet on a fresh rotor
`rotar(INT_MIN)` and `rotar(2)` give different mappings: after the first `'A'`
maps to `'A'`, after the second to `'C'`. -/
theorem rotar_congruentes_int_min :
    esInt INT_MIN ∧ esInt 2 ∧ INT_MIN % 26 = 2 % 26 ∧ INT_MIN.tmod 26 + 26 = 2 ∧
    ∃ r r1 r2, RotorDeMapeo.nuevo = some r ∧ r.rotar INT_MIN = some r1 ∧
      r.rotar 2 = some r2 ∧ r1.getMapeo 'A' = some 'A' ∧ r2.getMapeo 'A' = some 'C' ∧
      ¬ mismoMapeo r1 r2 :=
  ⟨by decide, by decide, by decide, by decide,
    { mem := anillo, cabeza := some 0 }, { mem := anillo, cabeza := some 0 },
    { mem := anillo, cabeza := some 2 },
    nuevo_eq, by decide, by decide, by decide, by decide,
    fun h => absurd (h 'A') (by decide)⟩

/-- On every reachable rotor `rotar(26)` changes nothing and `rotar(-1)` does
what `rotar(25)` does. -/
theorem rotar_casos (r : RotorDeMapeo) (hr : Alcanzable r) :
    r.rotar 26 = some r ∧ r.rotar (-1) = r.rotar 25 := by
  obtain ⟨k, hk, rfl⟩ := alcanzable_forma r hr
  constructor
  · rw [rotar_anillo k hk 26 (by decide) (by decide)]
    congr 3
    omega
  · rw [rotar_anillo k hk (-1) (by decide) (by decide),
      rotar_anillo k hk 25 (by decide) (by decide)]
    congr 3
    omega

/-! ## The mapping as a bijection of the alphabet -/

theorem char_toNat_inj (c d : Char) (h : c.toNat = d.toNat) : c = d := by
  rw [← Char.ofNat_toNat c, ← Char.ofNat_toNat d, h]

theorem esMayuscula_ofNat (j : Nat) (hj : j < 26) : esMayuscula (Char.ofNat (65 + j)) = true := by
  rw [esMayuscula_iff, char_ofNat_toNat j hj]
  omega

theorem char_de_indice (c : Char) (hc : esMayuscula c = true) :
    c = Char.ofNat (65 + (c.toNat - 65)) := by
  have hc2 := (esMayuscula_iff c).1 hc
  have h : 65 + (c.toNat - 65) = c.toNat := by omega
  rw [h, Char.ofNat_toNat]

/-- C14: on every reachable rotor `getMapeo` sends each uppercase letter to an
uppercase letter, sends different letters to different letters, and reaches
every uppercase letter: it is a bijection of A..Z onto itself. -/
theorem getMapeo_biyeccion (r : RotorDeMapeo) (hr : Alcanzable r) :
    (∀ c : Char, esMayuscula c = true →
      ∃ d, r.getMapeo c = some d ∧ esMayuscula d = true) ∧
    (∀ c1 c2 : Char, esMayuscula c1 = true → esMayuscula c2 = true →
      r.getMapeo c1 = r.getMapeo c2 → c1 = c2) ∧
    (∀ d : Char, esMayuscula d = true →
      ∃ c, esMayuscula c = true ∧ r.getMapeo c = some d) := by
  obtain ⟨k, hk, rfl⟩ := alcanzable_forma r hr
  refine ⟨?_, ?_, ?_⟩
  · intro c hc
    exact ⟨_, getMapeo_anillo k hk c hc, esMayuscula_ofNat _ (Nat.mod_lt _ (by decide))⟩
  · intro c1 c2 h1 h2 h
    rw [getMapeo_anillo k hk c1 h1, getMapeo_anillo k hk c2 h2] at h
    have h3 := congrArg Char.toNat (Option.some.inj h)
    rw [char_ofNat_toNat _ (Nat.mod_lt _ (by decide)),
      char_ofNat_toNat _ (Nat.mod_lt _ (by decide))] at h3
    have e1 := (esMayuscula_iff c1).1 h1
    have e2 := (esMayuscula_iff c2).1 h2
    exact char_toNat_inj c1 c2 (by omega)
  · intro d hd
    have e := (esMayuscula_iff d).1 hd
    have hj : (d.toNat - 65 + 26 - k) % 26 < 26 := Nat.mod_lt _ (by decide)
    refine ⟨Char.ofNat (65 + (d.toNat - 65 + 26 - k) % 26), esMayuscula_ofNat _ hj, ?_⟩
    rw [getMapeo_anillo k hk _ (esMayuscula_ofNat _ hj), char_ofNat_toNat _ hj]
    have h4 : (k + (65 + (d.toNat - 65 + 26 - k) % 26 - 65)) % 26 = d.toNat - 65 := by omega
    rw [h4]
    exact congrArg some (char_de_indice d hd).symm

/-- C14 on the rotor turned by three. -/
theorem getMapeo_biyeccion_witness :
    Alcanzable { mem := anillo, cabeza := some 3 } ∧
    (∀ c : Char, esMayuscula c = true →
      ∃ d, RotorDeMapeo.getMapeo { mem := anillo, cabeza := some 3 } c = some d ∧
        esMayuscula d = true) ∧
    (∀ c1 c2 : Char, esMayuscula c1 = true → esMayuscula c2 = true →
      RotorDeMapeo.getMapeo { mem := anillo, cabeza := some 3 } c1
        = RotorDeMapeo.getMapeo { mem := anillo, cabeza := some 3 } c2 → c1 = c2) ∧
    (∀ d : Char, esMayuscula d = true →
      ∃ c, esMayuscula c = true ∧
        RotorDeMapeo.getMapeo { mem := anillo, cabeza := some 3 } c = some d) :=
  ⟨Alcanzable.rotar _ _ 3 (Alcanzable.nuevo _ nuevo_eq) (by decide) (by decide),
    getMapeo_biyeccion _
      (Alcanzable.rotar _ _ 3 (Alcanzable.nuevo _ nuevo_eq) (by decide) (by decide))⟩

theorem rotorEn_eq (x : Int) (hx : esInt x) (hmin : x ≠ INT_MIN) :
    rotorEn x = some { mem := anillo, cabeza := some (x % 26).toNat } := by
  unfold rotorEn
  rw [nuevo_eq]
  simp only [Option.some_bind]
  rw [rotar_anillo 0 (by decide) x hx hmin]
  congr 3
  omega

/-- C15: for every uppercase letter `c` and every offset `o` in [0, 26), mapping
`c` with the rotor at offset `o` and mapping the result with the rotor at
offset `26 - o` gives `c` back. -/
theorem getMapeo_ida_vuelta (c : Char) (hc : esMayuscula c = true) (o : Nat) (ho : o < 26) :
    ∃ r1 r2 d, rotorEn (o : Int) = some r1 ∧ r1.offset = some o ∧
      rotorEn (26 - (o : Int)) = some r2 ∧
      r1.getMapeo c = some d ∧ r2.getMapeo d = some c := by
  have e := (esMayuscula_iff c).1 hc
  have h1 : ((o : Int) % 26).toNat = o := by omega
  have hk2 : ((26 - (o : Int)) % 26).toNat < 26 := by omega
  have hj : (o + (c.toNat - 65)) % 26 < 26 := Nat.mod_lt _ (by decide)
  refine ⟨_, _, Char.ofNat (65 + (o + (c.toNat - 65)) % 26),
    rotorEn_eq o (by unfold esInt INT_MIN INT_MAX; omega) (by unfold INT_MIN; omega), ?_,
    rotorEn_eq (26 - (o : Int)) (by unfold esInt INT_MIN INT_MAX; omega)
      (by unfold INT_MIN; omega), ?_, ?_⟩
  · rw [h1]
    exact offset_anillo o ho
  · rw [h1]
    exact getMapeo_anillo o ho c hc
  · rw [getMapeo_anillo _ hk2 _ (esMayuscula_ofNat _ hj), char_ofNat_toNat _ hj]
    have h4 : (((26 - (o : Int)) % 26).toNat + (65 + (o + (c.toNat - 65)) % 26 - 65)) % 26
        = c.toNat - 65 := by omega
    rw [h4]
    exact congrArg some (char_de_indice c hc).symm

/-- C15 at the letter `Q` and the offset 7. -/
theorem getMapeo_ida_vuelta_witness :
    esMayuscula 'Q' = true ∧ 7 < 26 ∧
    ∃ r1 r2 d, rotorEn ((7 : Nat) : Int) = some r1 ∧ r1.offset = some 7 ∧
      rotorEn (26 - ((7 : Nat) : Int)) = some r2 ∧
      r1.getMapeo 'Q' = some d ∧ r2.getMapeo d = some 'Q' :=
  ⟨by decide, by decide, getMapeo_ida_vuelta 'Q' (by decide) 7 (by decide)⟩

/-! ## The message list -/

theorem caracteres_listaDe (cs : List Char) : (listaDe cs).caracteres = some cs := by
  unfold ListaDeCarga.caracteres
  by_cases hcs : cs = []
  · subst hcs
    rfl
  · have hn : 0 < cs.length := List.length_pos.2 hcs
    have hcab : (listaDe cs).cabeza = some 0 := by simp [listaDe, hcs]
    rw [hcab, listaDe_length, recorrer_listaDe cs cs.length 0 hn (by omega)]
    rfl

theorem insertarTodos_listaDe : ∀ (ds cs : List Char),
    (listaDe cs).insertarTodos ds = some (listaDe (cs ++ ds)) := by
  intro ds
  induction ds with
  | nil =>
    intro cs
    rw [List.append_nil]
    rfl
  | cons d ds ih =>
    intro cs
    simp only [ListaDeCarga.insertarTodos, insertar_listaDe]
    rw [ih (cs ++ [d]), List.append_assoc]
    rfl

/-- The list reached from a fresh one by inserting `cs` is the closed form. -/
theorem insertarTodos_nueva (cs : List Char) :
    ListaDeCarga.nueva.insertarTodos cs = some (listaDe cs) := by
  have h := insertarTodos_listaDe cs []
  rwa [listaDe_nil, List.nil_append] at h

/-- C16: on the message list reached by inserting the characters `cs`, whose
characters `imprimirMensaje` writes as `cs` (in place of which it writes the
empty indicator when there is none), `insertarAlFinal(c)` succeeds and
afterwards `imprimirMensaje` writes `cs` followed by `c` (and the newline); the
result is the list reached by inserting `cs` and then `c`. -/
theorem insertarAlFinal_agrega (cs : List Char) (c : Char) :
    ∃ l l1, ListaDeCarga.nueva.insertarTodos cs = some l ∧
      l.caracteres = some cs ∧
      l.imprimirMensaje
        = some (if cs = [] then "[MENSAJE VACIO]".toList ++ ['\n'] else cs ++ ['\n']) ∧
      l.insertarAlFinal c = some l1 ∧
      l1.caracteres = some (cs ++ [c]) ∧
      l1.imprimirMensaje = some ((cs ++ [c]) ++ ['\n']) ∧
      ListaDeCarga.nueva.insertarTodos (cs ++ [c]) = some l1 := by
  refine ⟨listaDe cs, listaDe (cs ++ [c]), insertarTodos_nueva cs, caracteres_listaDe cs,
    imprimirMensaje_listaDe cs, insertar_listaDe cs c, caracteres_listaDe _, ?_,
    insertarTodos_nueva _⟩
  rw [imprimirMensaje_listaDe, if_neg (by simp)]

/-- C18: an empty message list is printed as `[MENSAJE VACIO]`, and the list
that holds exactly one character, whichever it is, is printed otherwise. -/
theorem imprimirMensaje_vacio :
    ListaDeCarga.nueva.imprimirMensaje = some ("[MENSAJE VACIO]".toList ++ ['\n']) ∧
    ∀ c : Char, ∃ l, ListaDeCarga.nueva.insertarAlFinal c = some l ∧
      l.imprimirMensaje = some [c, '\n'] ∧
      l.imprimirMensaje ≠ ListaDeCarga.nueva.imprimirMensaje := by
  refine ⟨rfl, fun c => ⟨listaDe [c], ?_, ?_, ?_⟩⟩
  · have h := insertar_listaDe [] c
    rwa [listaDe_nil, List.nil_append] at h
  · rw [imprimirMensaje_listaDe, if_neg (by simp)]
    rfl
  · rw [imprimirMensaje_listaDe, if_neg (by simp)]
    intro h
    rw [show ListaDeCarga.nueva.imprimirMensaje = some ("[MENSAJE VACIO]".toList ++ ['\n'])
      from rfl] at h
    have h2 := congrArg List.length (Option.some.inj h)
    simp only [List.length_append, List.length_singleton] at h2
    exact absurd h2 (by decide)

/-! ## The effect of the frames -/

/-- From a session in closed form the loop leaves a session whose counter has
grown by the number of frames processed and whose buffer has grown by the
number of Load frames among them. -/
theorem bucle_cuenta : ∀ (ls : List (Option (List Char))) (k : Nat) (cs : List Char) (n : Int),
    k < 26 → 0 ≤ n → n ≤ MAX_TRAMAS →
    ∃ e k1 cs1, bucle ls (concreta k cs n) = some e ∧
      e.sesion = concreta k1 cs1 (n + ((procesadas (MAX_TRAMAS - n).toNat ls).length : Int)) ∧
      cs1.length = cs.length + ((procesadas (MAX_TRAMAS - n).toNat ls).filter esLoad).length := by
  intro ls
  induction ls with
  | nil =>
    intro k cs n hk h0 hn
    have hp : procesadas (MAX_TRAMAS - n).toNat [] = [] := by
      cases (MAX_TRAMAS - n).toNat <;> rfl
    rw [hp]
    simp only [bucle]
    split_ifs
    · exact ⟨_, k, cs, rfl, by simp [Estado.sesion], by simp⟩
    · exact ⟨_, k, cs, rfl, by simp [Estado.sesion], by simp⟩
  | cons lec ls ih =>
    intro k cs n hk h0 hn
    simp only [bucle, iteracion_concreta k hk cs n lec, concreta_tramas]
    by_cases hlt : n < MAX_TRAMAS
    · obtain ⟨cap, hcap⟩ : ∃ cap, (MAX_TRAMAS - n).toNat = cap + 1 :=
        ⟨(MAX_TRAMAS - n).toNat - 1, by omega⟩
      have hcap1 : (MAX_TRAMAS - (n + 1)).toNat = cap := by omega
      have hn1 : n + 1 ≤ MAX_TRAMAS := by omega
      rw [hcap, if_pos hlt]
      by_cases hfin : lec = some finLinea
      · have hfin2 : lec = some "FIN".toList := hfin
        simp only [procesadas, if_pos hfin, if_pos hfin2]
        exact ⟨_, k, cs, rfl, by simp [Estado.sesion], by simp⟩
      · have hfin2 : ¬ (lec = some "FIN".toList) := hfin
        simp only [procesadas, if_neg hfin, if_neg hfin2]
        cases hp : parsearTrama lec with
        | none =>
          have := ih k cs n hk h0 hn
          rw [hcap] at this
          exact this
        | some t =>
          cases t with
          | TramaLoad c =>
            obtain ⟨e, k1, cs1, h1, h2, h3⟩ := ih k (cs ++ [mapeoEn k c]) (n + 1) hk (by omega) hn1
            rw [hcap1] at h2 h3
            refine ⟨e, k1, cs1, h1, ?_, ?_⟩
            · rw [h2]
              simp only [List.length_cons]
              push_cast
              ring_nf
            · rw [h3]
              simp [esLoad]
              omega
          | TramaMap m =>
            obtain ⟨e, k1, cs1, h1, h2, h3⟩ :=
              ih (girar k m) cs (n + 1) (girar_lt k hk m) (by omega) hn1
            rw [hcap1] at h2 h3
            refine ⟨e, k1, cs1, h1, ?_, ?_⟩
            · rw [h2]
              simp only [List.length_cons]
              push_cast
              ring_nf
            · rw [h3]
              simp [esLoad]
    · have hz : (MAX_TRAMAS - n).toNat = 0 := by omega
      rw [if_neg hlt, hz]
      simp only [procesadas]
      exact ⟨_, k, cs, rfl, by simp [Estado.sesion], by simp⟩

/-- C17: in every state of a decoding session the message buffer holds as many
characters as Load frames were processed, the counter being the number of all
frames processed; and one pass of the loop body adds one character for a Load
frame and none for a Map frame or a rejected read. -/
theorem buffer_cuenta_loads :
    (∀ lecturas : List (Option (List Char)),
      ∃ e cs, decodificar lecturas = some e ∧
        e.sesion.listaCarga.caracteres = some cs ∧
        cs.length = ((procesadas 100 lecturas).filter esLoad).length ∧
        e.sesion.tramasProcesadas = ((procesadas 100 lecturas).length : Int)) ∧
    (∀ (pre : List (Option (List Char))) (lec : Option (List Char)) (e : Estado)
        (cs : List Char),
      decodificar pre = some e → e.sesion.listaCarga.caracteres = some cs →
      ∃ p cs1, iteracion e.sesion lec = some p ∧
        p.sesion.listaCarga.caracteres = some cs1 ∧
        cs1.length = cs.length + (if lec = some finLinea then 0 else cuentaLoad lec)) := by
  constructor
  · intro lecturas
    obtain ⟨e, k1, cs1, h1, h2, h3⟩ :=
      bucle_cuenta lecturas 0 [] 0 (by decide) (by decide) (by decide)
    have h100 : (MAX_TRAMAS - 0).toNat = 100 := by decide
    rw [h100] at h2 h3
    refine ⟨e, cs1, by rw [decodificar_eq]; exact h1, ?_, ?_, ?_⟩
    · rw [h2]
      exact caracteres_listaDe cs1
    · simpa using h3
    · rw [h2]
      simp [concreta]
  · intro pre lec e cs hdec hcs
    obtain ⟨e1, k1, cs1, n1, h1, h2, hk1, _, _⟩ :=
      bucle_total pre 0 [] 0 (by decide) (by decide) (by decide)
    rw [decodificar_eq, h1] at hdec
    have he : e1 = e := Option.some.inj hdec
    subst he
    rw [h2] at hcs ⊢
    have hcs2 : cs1 = cs := by
      have := caracteres_listaDe cs1
      simp only [concreta] at hcs
      rw [this] at hcs
      exact Option.some.inj hcs
    subst hcs2
    rw [iteracion_concreta k1 hk1 cs1 n1 lec]
    by_cases hfin : lec = some finLinea
    · rw [if_pos hfin, if_pos hfin]
      exact ⟨_, cs1, rfl, caracteres_listaDe cs1, rfl⟩
    · rw [if_neg hfin, if_neg hfin]
      unfold cuentaLoad
      cases hp : parsearTrama lec with
      | none => exact ⟨_, cs1, rfl, caracteres_listaDe cs1, rfl⟩
      | some t =>
        cases t with
        | TramaLoad c =>
          exact ⟨_, cs1 ++ [mapeoEn k1 c], rfl, caracteres_listaDe _, by simp⟩
        | TramaMap m => exact ⟨_, cs1, rfl, caracteres_listaDe cs1, rfl⟩

/-- C17 at the session after `"M,1"`, `"L,A"` and the read `"L,B"`. -/
theorem buffer_cuenta_loads_witness :
    ∃ p cs1, iteracion (concreta 1 ['B'] 2) (some "L,B".toList) = some p ∧
      p.sesion.listaCarga.caracteres = some cs1 ∧
      cs1.length = ['B'].length
        + (if some "L,B".toList = some finLinea then 0 else cuentaLoad (some "L,B".toList)) :=
  buffer_cuenta_loads.2 (lineas ["M,1", "L,A"]) (some "L,B".toList)
    (Estado.esperando (concreta 1 ['B'] 2)) ['B'] (by decide) (by decide)

/-- C19: with the buffer and the rotor present, a Load(c) frame appends
`getMapeo(c)` of the current rotor to the buffer and leaves the rotor as it is,
a Map(n) frame applies `rotar(n)` to the rotor and leaves the buffer as it is,
and the pass of the loop body that processes a frame adds one to the counter. -/
theorem procesar_efecto (r : RotorDeMapeo) (hr : Alcanzable r) (cs : List Char)
    (l : ListaDeCarga) (hl : ListaDeCarga.nueva.insertarTodos cs = some l) :
    (∀ c : Char, ∃ d l1, r.getMapeo c = some d ∧ l.insertarAlFinal d = some l1 ∧
      l1.caracteres = some (cs ++ [d]) ∧
      (TramaBase.TramaLoad c).procesar (some l) (some r) = some (some l1, some r)) ∧
    (∀ n : Int, esInt n → ∃ r1, r.rotar n = some r1 ∧
      (TramaBase.TramaMap n).procesar (some l) (some r) = some (some l, some r1)) ∧
    (∀ (n : Int) (lec : Option (List Char)) (t : TramaBase), parsearTrama lec = some t →
      ∃ l1 r1, t.procesar (some l) (some r) = some (some l1, some r1) ∧
        iteracion { listaCarga := l, rotor := r, tramasProcesadas := n } lec
          = some (Paso.continuar
              { listaCarga := l1, rotor := r1, tramasProcesadas := n + 1 })) := by
  obtain ⟨k, hk, rfl⟩ := alcanzable_forma r hr
  rw [insertarTodos_nueva] at hl
  have hl2 : l = listaDe cs := (Option.some.inj hl).symm
  subst hl2
  refine ⟨?_, ?_, ?_⟩
  · intro c
    exact ⟨mapeoEn k c, _, getMapeo_concreta k hk c, insertar_listaDe cs _,
      caracteres_listaDe _, procesar_load k hk cs c⟩
  · intro n hn
    exact ⟨_, rotar_concreta k hk n hn, procesar_map k hk cs n hn⟩
  · intro n lec t hp
    have hfin : lec ≠ some finLinea := by
      intro h
      rw [h, parsearTrama_fin] at hp
      exact absurd hp (by simp)
    have hit := iteracion_concreta k hk cs n lec
    rw [if_neg hfin, hp] at hit
    cases t with
    | TramaLoad c => exact ⟨_, _, procesar_load k hk cs c, hit⟩
    | TramaMap m =>
      exact ⟨_, _, procesar_map k hk cs m (parsearTrama_map_esInt _ _ hp), hit⟩

/-- C19 on the rotor turned by three and the buffer that holds `"HI"`. -/
theorem procesar_efecto_witness :
    Alcanzable { mem := anillo, cabeza := some 3 } ∧
    ListaDeCarga.nueva.insertarTodos ['H', 'I'] = some (listaDe ['H', 'I']) ∧
    ∃ d l1, RotorDeMapeo.getMapeo { mem := anillo, cabeza := some 3 } 'A' = some d ∧
      (listaDe ['H', 'I']).insertarAlFinal d = some l1 ∧
      l1.caracteres = some (['H', 'I'] ++ [d]) ∧
      (TramaBase.TramaLoad 'A').procesar (some (listaDe ['H', 'I']))
          (some { mem := anillo, cabeza := some 3 })
        = some (some l1, some { mem := anillo, cabeza := some 3 }) :=
  ⟨Alcanzable.rotar _ _ 3 (Alcanzable.nuevo _ nuevo_eq) (by decide) (by decide), by decide,
    (procesar_efecto _
      (Alcanzable.rotar _ _ 3 (Alcanzable.nuevo _ nuevo_eq) (by decide) (by decide))
      ['H', 'I'] (listaDe ['H', 'I']) (by decide)).1 'A'⟩

/-! ## The ring of the rotor -/

theorem llamar_anillo (k : Nat) (hk : k < 26) (ll : Llamada)
    (h : ∀ n, ll = Llamada.rotar n → esInt n) :
    ∃ k1, k1 < 26 ∧
      RotorDeMapeo.llamar { mem := anillo, cabeza := some k } ll
        = some { mem := anillo, cabeza := some k1 } := by
  cases ll with
  | rotar n =>
    exact ⟨girar k n, girar_lt k hk n, rotar_concreta k hk n (h n rfl)⟩
  | getMapeo c =>
    refine ⟨k, hk, ?_⟩
    simp only [RotorDeMapeo.llamar, getMapeo_concreta k hk c, Option.map_some']

theorem llamarTodas_anillo : ∀ (lls : List Llamada) (k : Nat), k < 26 →
    (∀ n, Llamada.rotar n ∈ lls → esInt n) →
    ∃ k1, k1 < 26 ∧
      RotorDeMapeo.llamarTodas { mem := anillo, cabeza := some k } lls
        = some { mem := anillo, cabeza := some k1 } := by
  intro lls
  induction lls with
  | nil => intro k hk _; exact ⟨k, hk, rfl⟩
  | cons ll lls ih =>
    intro k hk h
    obtain ⟨k1, hk1, h1⟩ := llamar_anillo k hk ll
      (fun n hn => h n (by rw [hn]; exact List.mem_cons_self _ _))
    obtain ⟨k2, hk2, h2⟩ := ih k1 hk1 (fun n hn => h n (List.mem_cons_of_mem _ hn))
    exact ⟨k2, hk2, by simp only [RotorDeMapeo.llamarTodas, h1, h2]⟩

theorem imprimirBucle_anillo : ∀ k, k < 26 →
    imprimirBucle anillo (some k) 31 0 (some k) = some (alfabeto.rotate k) := by
  decide

theorem anillo_length : anillo.length = 26 := by decide

theorem alfabeto_get : ∀ k, k < 26 → alfabeto[k]? = some (Char.ofNat (65 + k)) := by
  decide

/-- C20: after the constructor and any sequence of `rotar` and `getMapeo` calls
the store of the rotor is the one the constructor built (26 nodes, links
untouched) and only `cabeza` may differ; walking `siguiente` from the head, as
`imprimir` does, visits the 26 letters once each, in alphabetical order from
the head's letter round to the letter before it, and is then back at the head;
`anterior` undoes `siguiente` and `siguiente` undoes `anterior` on each node;
and a `getMapeo` call leaves the rotor as it is. -/
theorem anillo_invariante (lls : List Llamada) (h : ∀ n, Llamada.rotar n ∈ lls → esInt n) :
    ∃ r0 r k, RotorDeMapeo.nuevo = some r0 ∧ r0.llamarTodas lls = some r ∧
      r.mem = r0.mem ∧ r.mem.length = 26 ∧ r.cabeza = some k ∧ k < 26 ∧
      (leer r.mem r.cabeza).map Nodo.dato = alfabeto[k]? ∧
      imprimirBucle r.mem r.cabeza 31 0 r.cabeza = some (alfabeto.rotate k) ∧
      (alfabeto.rotate k).length = 26 ∧ (alfabeto.rotate k).Nodup ∧
      seguir r.mem Nodo.siguiente 26 r.cabeza = some r.cabeza ∧
      (∀ j, 0 < j → j < 26 → seguir r.mem Nodo.siguiente j r.cabeza ≠ some r.cabeza) ∧
      (∀ a, a < 26 → ∃ nd b nb, r.mem[a]? = some nd ∧ nd.siguiente = some b ∧
        r.mem[b]? = some nb ∧ nb.anterior = some a) ∧
      (∀ a, a < 26 → ∃ nd b nb, r.mem[a]? = some nd ∧ nd.anterior = some b ∧
        r.mem[b]? = some nb ∧ nb.siguiente = some a) ∧
      (∀ c : Char, r.llamar (Llamada.getMapeo c) = some r) := by
  obtain ⟨k, hk, hr⟩ := llamarTodas_anillo lls 0 (by decide) h
  refine ⟨_, _, k, nuevo_eq, hr, rfl, anillo_length, rfl, hk, ?_, imprimirBucle_anillo k hk,
    ?_, ?_, ?_, ?_, ?_, ?_, ?_⟩
  · simp only [leer, anillo_get k hk, Option.map_some']
    exact (alfabeto_get k hk).symm
  · simp [alfabeto]
  · rw [List.nodup_rotate]
    decide
  · simp only
    rw [seguir_siguiente 26 k hk]
    congr 2
    omega
  · intro j hj0 hj
    simp only
    rw [seguir_siguiente j k hk]
    intro heq
    have := Option.some.inj (Option.some.inj heq)
    omega
  · intro a ha
    refine ⟨_, _, _, anillo_get a ha, rfl, anillo_get _ (Nat.mod_lt _ (by decide)), ?_⟩
    simp only [Option.some.injEq]
    omega
  · intro a ha
    refine ⟨_, _, _, anillo_get a ha, rfl, anillo_get _ (Nat.mod_lt _ (by decide)), ?_⟩
    simp only [Option.some.injEq]
    omega
  · intro c
    simp only [RotorDeMapeo.llamar, getMapeo_concreta k hk c, Option.map_some']

/-- The arguments of the `rotar` calls in a sample sequence are `int` values. -/
theorem llamadas_ejemplo :
    ∀ n, Llamada.rotar n ∈ [Llamada.rotar 5, Llamada.getMapeo 'C', Llamada.rotar (-7),
      Llamada.rotar INT_MIN] → esInt n := by
  intro n hn
  simp only [List.mem_cons, Llamada.rotar.injEq, List.mem_singleton, reduceCtorEq, false_or,
    List.mem_nil_iff, or_false] at hn
  rcases hn with rfl | rfl | rfl <;> decide

/-- C20 after `rotar(5)`, `getMapeo('C')`, `rotar(-7)` and `rotar(INT_MIN)`. -/
theorem anillo_invariante_witness :
    (∀ n, Llamada.rotar n ∈ [Llamada.rotar 5, Llamada.getMapeo 'C', Llamada.rotar (-7),
      Llamada.rotar INT_MIN] → esInt n) ∧
    ∃ r0 r k, RotorDeMapeo.nuevo = some r0 ∧
      r0.llamarTodas [Llamada.rotar 5, Llamada.getMapeo 'C', Llamada.rotar (-7),
        Llamada.rotar INT_MIN] = some r ∧
      r.mem = r0.mem ∧ r.mem.length = 26 ∧ r.cabeza = some k ∧ k < 26 ∧
      (leer r.mem r.cabeza).map Nodo.dato = alfabeto[k]? ∧
      imprimirBucle r.mem r.cabeza 31 0 r.cabeza = some (alfabeto.rotate k) ∧
      (alfabeto.rotate k).length = 26 ∧ (alfabeto.rotate k).Nodup ∧
      seguir r.mem Nodo.siguiente 26 r.cabeza = some r.cabeza ∧
      (∀ j, 0 < j → j < 26 → seguir r.mem Nodo.siguiente j r.cabeza ≠ some r.cabeza) ∧
      (∀ a, a < 26 → ∃ nd b nb, r.mem[a]? = some nd ∧ nd.siguiente = some b ∧
        r.mem[b]? = some nb ∧ nb.anterior = some a) ∧
      (∀ a, a < 26 → ∃ nd b nb, r.mem[a]? = some nd ∧ nd.anterior = some b ∧
        r.mem[b]? = some nb ∧ nb.siguiente = some a) ∧
      (∀ c : Char, r.llamar (Llamada.getMapeo c) = some r) :=
  ⟨llamadas_ejemplo, anillo_invariante _ llamadas_ejemplo⟩

/-! ## The message list is well formed -/

theorem caminar_siguiente_listaDe (cs : List Char) (fuel : Nat) : ∀ i, i < cs.length →
    cs.length - i ≤ fuel →
    caminar (listaDe cs).mem Nodo.siguiente fuel (some i)
      = some (List.range' i (cs.length - i)) := by
  induction fuel with
  | zero => intro i h1 h2; omega
  | succ fuel ih =>
    intro i h1 h2
    simp only [caminar, listaDe_get cs i h1]
    obtain ⟨m, hm⟩ : ∃ m, cs.length - i = m + 1 := ⟨cs.length - i - 1, by omega⟩
    rw [hm, List.range'_succ]
    by_cases h3 : i + 1 < cs.length
    · simp only [nodoDe, h3, if_true]
      rw [ih (i + 1) h3 (by omega)]
      have : cs.length - (i + 1) = m := by omega
      rw [this]
      rfl
    · simp only [nodoDe, h3, if_false, caminar]
      have : m = 0 := by omega
      rw [this]
      rfl

theorem caminar_anterior_listaDe (cs : List Char) : ∀ (i fuel : Nat), i < cs.length →
    i + 1 ≤ fuel →
    caminar (listaDe cs).mem Nodo.anterior fuel (some i) = some (List.range (i + 1)).reverse := by
  intro i
  induction i with
  | zero =>
    intro fuel h1 h2
    obtain ⟨f, rfl⟩ : ∃ f, fuel = f + 1 := ⟨fuel - 1, by omega⟩
    simp only [caminar, listaDe_get cs 0 h1, nodoDe, Nat.lt_irrefl, if_false]
    cases f <;> rfl
  | succ i ih =>
    intro fuel h1 h2
    obtain ⟨f, rfl⟩ : ∃ f, fuel = f + 1 := ⟨fuel - 1, by omega⟩
    simp only [caminar, listaDe_get cs (i + 1) h1, nodoDe, Nat.succ_pos, if_true,
      Nat.add_sub_cancel]
    rw [ih f (by omega) (by omega), List.range_succ (i + 1), List.reverse_append]
    rfl

/-- C22: after any number of insertions into a fresh list, `cabeza` is null
exactly when nothing was inserted and so is `cola`; the walk along `siguiente`
from `cabeza` ends, visits one node per inserted character and carries the
characters in insertion order; `cola` is the last node of that walk; and the
walk along `anterior` from `cola` ends and visits the same nodes in reverse
order. -/
theorem lista_bien_formada (cs : List Char) :
    ∃ l nodos, ListaDeCarga.nueva.insertarTodos cs = some l ∧
      (l.cabeza = none ↔ cs = []) ∧ (l.cola = none ↔ cs = []) ∧
      caminar l.mem Nodo.siguiente l.mem.length l.cabeza = some nodos ∧
      nodos.length = cs.length ∧
      nodos.map (fun a => (l.mem[a]?).map Nodo.dato) = cs.map some ∧
      l.cola = nodos.getLast? ∧
      caminar l.mem Nodo.anterior l.mem.length l.cola = some nodos.reverse := by
  refine ⟨listaDe cs, List.range cs.length, insertarTodos_nueva cs, ?_, ?_, ?_, ?_, ?_, ?_, ?_⟩
  · simp [listaDe]
  · simp [listaDe]
  · rw [listaDe_length]
    by_cases hcs : cs = []
    · subst hcs
      rfl
    · have hn : 0 < cs.length := List.length_pos.2 hcs
      have hcab : (listaDe cs).cabeza = some 0 := by simp [listaDe, hcs]
      rw [hcab, caminar_siguiente_listaDe cs cs.length 0 hn (by omega), List.range_eq_range']
      rfl
  · exact List.length_range _
  · apply List.ext_getElem?
    intro i
    simp only [List.getElem?_map]
    by_cases hi : i < cs.length
    · rw [List.getElem?_range hi, List.getElem?_eq_getElem hi]
      simp only [Option.map_some', listaDe_get cs i hi, nodoDe]
      rw [List.getD_eq_getElem _ _ hi]
    · rw [List.getElem?_eq_none (by simpa using hi), List.getElem?_eq_none (by simpa using hi)]
      rfl
  · rw [List.getLast?_range]
    rfl
  · rw [listaDe_length]
    by_cases hcs : cs = []
    · subst hcs
      rfl
    · have hn : 0 < cs.length := List.length_pos.2 hcs
      have hcola : (listaDe cs).cola = some (cs.length - 1) := by simp [listaDe, hcs]
      rw [hcola, caminar_anterior_listaDe cs (cs.length - 1) cs.length (by omega) (by omega)]
      have : cs.length - 1 + 1 = cs.length := by omega
      rw [this]

/-! ## Reading a line from the serial port -/

theorem antesDeSalto_salto (bs : List Char) : antesDeSalto ('\n' :: bs) = [] := by
  simp [antesDeSalto]

theorem antesDeSalto_retorno (bs : List Char) : antesDeSalto ('\r' :: bs) = antesDeSalto bs := by
  simp [antesDeSalto]

theorem antesDeSalto_otro (b : Char) (bs : List Char) (h1 : b ≠ '\n') (h2 : b ≠ '\r') :
    antesDeSalto (b :: bs) = b :: antesDeSalto bs := by
  simp [antesDeSalto, h1, h2]

theorem cadena_length_le (buf : List Char) : (cadena buf).length ≤ buf.length :=
  (List.takeWhile_sublist _).length_le

theorem cadena_mem (buf : List Char) (c : Char) (h : c ∈ cadena buf) :
    c ∈ buf ∧ c ≠ Char.ofNat 0 := by
  refine ⟨List.takeWhile_subset _ h, ?_⟩
  have := List.mem_takeWhile_imp h
  simpa using this

/-- A buffer without a NUL byte is its own C string. -/
theorem cadena_sin_nul (buf : List Char) (h : ∀ c ∈ buf, c ≠ Char.ofNat 0) : cadena buf = buf := by
  unfold cadena
  rw [List.takeWhile_eq_self_iff]
  intro c hc
  simpa using h c hc

/-- The loop of `leerLinea` when no `read` fails: it returns at the first `'\n'`
when fewer than 255 bytes other than `'\r'` were stored by then, and otherwise
once 255 bytes are stored. -/
theorem leerLineaBucle_linea : ∀ (rs : List Leido) (buf : List Char),
    Leido.error ∉ rs → buf.length ≤ 255 →
    ('\n' ∈ bytesDe rs → buf.length + (antesDeSalto (bytesDe rs)).length < 255 →
      ∃ resto, leerLineaBucle rs buf
        = some (some (cadena (buf ++ antesDeSalto (bytesDe rs))), resto)) ∧
    (255 ≤ buf.length + (antesDeSalto (bytesDe rs)).length →
      ∃ resto, leerLineaBucle rs buf
        = some (some (cadena (buf ++ (antesDeSalto (bytesDe rs)).take (255 - buf.length))),
            resto)) := by
  intro rs
  induction rs with
  | nil =>
    intro buf _ hbuf
    constructor
    · intro h
      simp [bytesDe] at h
    · intro h
      simp only [bytesDe, antesDeSalto, List.takeWhile_nil, List.filter_nil, List.length_nil,
        Nat.add_zero] at h
      have h255 : ¬ buf.length < 255 := by omega
      simp [leerLineaBucle, h255, bytesDe, antesDeSalto]
  | cons x rs ih =>
    intro buf herr hbuf
    have herr2 : Leido.error ∉ rs := fun h => herr (List.mem_cons_of_mem _ h)
    by_cases hlt : buf.length < 255
    · cases x with
      | error => exact absurd (List.mem_cons_self _ _) herr
      | nada =>
        have hb : bytesDe (Leido.nada :: rs) = bytesDe rs := rfl
        simp only [leerLineaBucle, if_pos hlt, hb]
        exact ih buf herr2 hbuf
      | byte b =>
        have hb : bytesDe (Leido.byte b :: rs) = b :: bytesDe rs := rfl
        rw [hb]
        by_cases hn : b = '\n'
        · subst hn
          simp only [leerLineaBucle, if_pos hlt, if_true, antesDeSalto_salto, List.append_nil,
            List.length_nil, Nat.add_zero, List.take_nil]
          exact ⟨fun _ _ => ⟨rs, rfl⟩, fun h => absurd h (by omega)⟩
        · by_cases hr : b = '\r'
          · subst hr
            simp only [leerLineaBucle, if_pos hlt, if_neg hn, ne_eq, not_true_eq_false,
              if_false, antesDeSalto_retorno]
            have := ih buf herr2 hbuf
            refine ⟨fun h1 h2 => this.1 ?_ h2, this.2⟩
            rcases List.mem_cons.1 h1 with h | h
            · exact absurd h (by decide)
            · exact h
          · simp only [leerLineaBucle, if_pos hlt, if_neg hn, ne_eq, hr, not_false_eq_true,
              if_true, antesDeSalto_otro b _ hn hr, List.length_cons]
            have := ih (buf ++ [b]) herr2 (by simp; omega)
            simp only [List.length_append, List.length_singleton, List.append_assoc,
              List.singleton_append] at this
            constructor
            · intro h1 h2
              refine this.1 ?_ (by omega)
              rcases List.mem_cons.1 h1 with h | h
              · exact absurd h.symm hn
              · exact h
            · intro h
              obtain ⟨resto, hres⟩ := this.2 (by omega)
              refine ⟨resto, ?_⟩
              rw [hres]
              have e : 255 - buf.length = (255 - (buf.length + 1)) + 1 := by omega
              rw [e, List.take_succ_cons]
    · have h255 : buf.length = 255 := by omega
      simp only [leerLineaBucle, if_neg hlt, h255, Nat.sub_self, List.take_zero, List.append_nil]
      exact ⟨fun _ h => absurd h (by omega), fun _ => ⟨_, rfl⟩⟩

/-- A line returned by the loop of `leerLinea` has at most 255 characters and
holds no `'\r'`, no `'\n'` and no NUL. -/
theorem leerLineaBucle_forma : ∀ (rs : List Leido) (buf l : List Char) (resto : List Leido),
    leerLineaBucle rs buf = some (some l, resto) → buf.length ≤ 255 →
    (∀ c ∈ buf, c ≠ '\r' ∧ c ≠ '\n') →
    l.length ≤ 255 ∧ ∀ c ∈ l, c ≠ '\r' ∧ c ≠ '\n' ∧ c ≠ Char.ofNat 0 := by
  have fin : ∀ (buf l : List Char), cadena buf = l → buf.length ≤ 255 →
      (∀ c ∈ buf, c ≠ '\r' ∧ c ≠ '\n') →
      l.length ≤ 255 ∧ ∀ c ∈ l, c ≠ '\r' ∧ c ≠ '\n' ∧ c ≠ Char.ofNat 0 := by
    intro buf l hl hlen hbuf
    subst hl
    refine ⟨le_trans (cadena_length_le buf) hlen, fun c hc => ?_⟩
    have := cadena_mem buf c hc
    exact ⟨(hbuf c this.1).1, (hbuf c this.1).2, this.2⟩
  intro rs
  induction rs with
  | nil =>
    intro buf l resto h hlen hbuf
    simp only [leerLineaBucle] at h
    split_ifs at h
    simp only [Option.some.injEq, Prod.mk.injEq] at h
    exact fin buf l h.1 hlen hbuf
  | cons x rs ih =>
    intro buf l resto h hlen hbuf
    simp only [leerLineaBucle] at h
    split_ifs at h with hlt
    · cases x with
      | error => simp at h
      | nada => exact ih buf l resto h hlen hbuf
      | byte b =>
        simp only at h
        split_ifs at h with hn hr
        · simp only [Option.some.injEq, Prod.mk.injEq] at h
          exact fin buf l h.1 hlen hbuf
        · refine ih (buf ++ [b]) l resto h (by simp; omega) ?_
          intro c hc
          rcases List.mem_append.1 hc with hc | hc
          · exact hbuf c hc
          · rw [List.mem_singleton.1 hc]
            exact ⟨hr, hn⟩
        · exact ih buf l resto h hlen hbuf
    · simp only [Option.some.injEq, Prod.mk.injEq] at h
      exact fin buf l h.1 hlen hbuf

/-- C21, as claimed, fails on the bytes `'A'`, NUL, `'B'`, `'\n'`: three bytes
precede the `'\n'`, none of them a `'\r'`, but the line returned is the C
string in `linea`, which ends at the NUL: it is `"A"`. -/
theorem leerLinea_nul :
    Leido.error ∉ [Leido.byte 'A', Leido.byte (Char.ofNat 0), Leido.byte 'B', Leido.byte '\n'] ∧
    antesDeSalto
        (bytesDe [Leido.byte 'A', Leido.byte (Char.ofNat 0), Leido.byte 'B', Leido.byte '\n'])
      = ['A', Char.ofNat 0, 'B'] ∧
    leerLinea true [Leido.byte 'A', Leido.byte (Char.ofNat 0), Leido.byte 'B', Leido.byte '\n']
      = some (some ['A'], []) ∧
    ∀ resto,
      leerLinea true [Leido.byte 'A', Leido.byte (Char.ofNat 0), Leido.byte 'B', Leido.byte '\n']
        ≠ some (some (antesDeSalto (bytesDe
            [Leido.byte 'A', Leido.byte (Char.ofNat 0), Leido.byte 'B', Leido.byte '\n'])),
          resto) := by
  refine ⟨by decide, by decide, by decide, ?_⟩
  intro resto h
  have h1 : leerLinea true
      [Leido.byte 'A', Leido.byte (Char.ofNat 0), Leido.byte 'B', Leido.byte '\n']
      = some (some ['A'], []) := by decide
  have h2 : antesDeSalto
      (bytesDe [Leido.byte 'A', Leido.byte (Char.ofNat 0), Leido.byte 'B', Leido.byte '\n'])
      = ['A', Char.ofNat 0, 'B'] := by decide
  rw [h1, h2] at h
  simp only [Option.some.injEq, Prod.mk.injEq] at h
  exact absurd h.1 (by decide)

/-- C21, amended: on a connected port whose `read` calls never fail, `leerLinea`
returns the bytes that precede the first `'\n'` with every `'\r'` removed, cut
at the first NUL byte among them if there is one, provided fewer than 255 such
bytes precede the `'\n'`; when 255 or more bytes other than `'\r'` arrive
first, it returns the first 255 of them, cut likewise.  Without a NUL byte
nothing is cut.  The line returned has at most 255 characters and holds no
`'\r'` and no `'\n'`.  The stream `"FIN\r\n"` gives `"FIN"`. -/
theorem leerLinea_linea (lecturas : List Leido) (hsin : Leido.error ∉ lecturas) :
    ('\n' ∈ bytesDe lecturas → (antesDeSalto (bytesDe lecturas)).length < 255 →
      ∃ resto, leerLinea true lecturas
        = some (some (cadena (antesDeSalto (bytesDe lecturas))), resto)) ∧
    (255 ≤ (antesDeSalto (bytesDe lecturas)).length →
      ∃ resto, leerLinea true lecturas
        = some (some (cadena ((antesDeSalto (bytesDe lecturas)).take 255)), resto)) ∧
    ((∀ c ∈ bytesDe lecturas, c ≠ Char.ofNat 0) →
      cadena (antesDeSalto (bytesDe lecturas)) = antesDeSalto (bytesDe lecturas) ∧
      cadena ((antesDeSalto (bytesDe lecturas)).take 255)
        = (antesDeSalto (bytesDe lecturas)).take 255) ∧
    (∀ l resto, leerLinea true lecturas = some (some l, resto) →
      l.length ≤ 255 ∧ ∀ c ∈ l, c ≠ '\r' ∧ c ≠ '\n') ∧
    leerLinea true ("FIN\r\n".toList.map Leido.byte) = some (some "FIN".toList, []) := by
  have key := leerLineaBucle_linea lecturas [] hsin (by decide)
  simp only [List.length_nil, Nat.zero_add, List.nil_append, Nat.sub_zero] at key
  have hle : leerLinea true lecturas = leerLineaBucle lecturas [] := rfl
  refine ⟨?_, ?_, ?_, ?_, by decide⟩
  · intro h1 h2
    rw [hle]
    exact key.1 h1 h2
  · intro h
    rw [hle]
    exact key.2 h
  · intro hnul
    have hsub : ∀ c ∈ antesDeSalto (bytesDe lecturas), c ≠ Char.ofNat 0 := by
      intro c hc
      exact hnul c (List.takeWhile_subset _ (List.mem_of_mem_filter hc))
    exact ⟨cadena_sin_nul _ hsub, cadena_sin_nul _ (fun c hc => hsub c (List.mem_of_mem_take hc))⟩
  · intro l resto h
    rw [hle] at h
    have := leerLineaBucle_forma lecturas [] l resto h (by decide) (by simp)
    exact ⟨this.1, fun c hc => ⟨(this.2 c hc).1, (this.2 c hc).2.1⟩⟩

/-- C21, amended, on the bytes of `"L,\rA\n"` with a `read` that gives no data
in between. -/
theorem leerLinea_linea_witness :
    Leido.error ∉ [Leido.byte 'L', Leido.byte ',', Leido.byte '\r', Leido.nada, Leido.byte 'A',
      Leido.byte '\n'] ∧
    ∃ resto, leerLinea true [Leido.byte 'L', Leido.byte ',', Leido.byte '\r', Leido.nada,
        Leido.byte 'A', Leido.byte '\n']
      = some (some (cadena (antesDeSalto (bytesDe [Leido.byte 'L', Leido.byte ',',
          Leido.byte '\r', Leido.nada, Leido.byte 'A', Leido.byte '\n']))), resto) :=
  ⟨by decide,
    (leerLinea_linea [Leido.byte 'L', Leido.byte ',', Leido.byte '\r', Leido.nada,
      Leido.byte 'A', Leido.byte '\n'] (by decide)).1 (by decide) (by decide)⟩

end PRT7
